import Mathlib

set_option maxRecDepth 10000

/-!
Verification of the news-scraper repository (src/ibtihel_scrapFile.py,
src/oumaima-scrap.py).

Python strings are modelled as lists of Unicode code points (`Str := List Nat`).
External collaborators (requests, feedparser, BeautifulSoup, readability,
dateutil, hashlib, pandas) are modelled as parameters or as observation
structures; everything written in the repository itself, plus the parts of
`urllib.parse` that `normalize_url` calls, is translated
definition-by-definition from the source (CPython `Lib/urllib/parse.py`,
3.9-3.11 behaviour, for the library calls).
-/

/-- A Python string, as its list of Unicode code points. -/
abbrev Str := List Nat

/-- Convert a Lean string literal into the `Str` model. -/
def ofString (s : String) : Str := s.data.map Char.toNat

/-- Python `str.lower()` restricted to ASCII (non-ASCII case mapping is not
exercised by any claim and is modelled as the identity). -/
def asciiLower (c : Nat) : Nat := if 65 ≤ c ∧ c ≤ 90 then c + 32 else c

def lowerStr (s : Str) : Str := s.map asciiLower

/-- ASCII whitespace, the part of Python `str.strip()`'s whitespace set that
the claims exercise. -/
def isWs (c : Nat) : Bool := c = 32 ∨ c = 9 ∨ c = 10 ∨ c = 13 ∨ c = 11 ∨ c = 12

/-- Python `str.strip()` (no argument): trim leading and trailing whitespace. -/
def pyStrip (s : Str) : Str :=
  ((s.dropWhile isWs).reverse.dropWhile isWs).reverse

/-- Python `str.rstrip("/")`: drop all trailing slashes (code point 47). -/
def rstripSlash (s : Str) : Str := (s.reverse.dropWhile (fun c => c = 47)).reverse

/-- Python `s.split(sep, 1)` when `sep` occurs: the parts before and after the
first occurrence of the one-character separator; `none` when it does not occur. -/
def splitFirst (sep : Nat) (s : Str) : Option (Str × Str) :=
  if sep ∈ s then some (s.takeWhile (fun c => c ≠ sep), (s.dropWhile (fun c => c ≠ sep)).tail)
  else none

/-- Python `s.split(sep)` for a one-character separator (returns `[""]` on the
empty string, like Python). -/
def splitAll (sep : Nat) : Str → List Str
  | [] => [[]]
  | c :: rest =>
    if c = sep then [] :: splitAll sep rest
    else
      match splitAll sep rest with
      | [] => [[c]]
      | seg :: segs => (c :: seg) :: segs

/-- Python `sep.join(segs)` for list-of-codepoint strings. -/
def joinSep (sep : Str) : List Str → Str
  | [] => []
  | [x] => x
  | x :: xs => x ++ sep ++ joinSep sep xs

/-- Python `marker in s` (substring test), by scanning every suffix. -/
def containsSub (marker : Str) (s : Str) : Bool :=
  match s with
  | [] => marker = []
  | _ :: rest => marker.isPrefixOf s || containsSub marker rest

/-! ### UTF-8 and percent-encoding (urllib.parse.quote/unquote machinery) -/

/-- UTF-8 encoding of one code point (Python `chr(c).encode("utf-8")`; total
here, while Python raises on lone surrogates — theorems that need the
round-trip carry a validity hypothesis instead). -/
def utf8EncodeChar (c : Nat) : List Nat :=
  if c < 128 then [c]
  else if c < 2048 then [192 + c / 64, 128 + c % 64]
  else if c < 65536 then [224 + c / 4096, 128 + (c / 64) % 64, 128 + c % 64]
  else [240 + c / 262144, 128 + (c / 4096) % 64, 128 + (c / 64) % 64, 128 + c % 64]

def utf8Encode (s : Str) : List Nat := (s.map utf8EncodeChar).flatten

/-- A continuation byte in a given inclusive range. -/
def contIn (lo hi b : Nat) : Bool := lo ≤ b ∧ b ≤ hi

/-- Strict UTF-8 decoding with `errors="replace"` (U+FFFD = 65533 for each
maximal invalid subpart), as `bytes.decode("utf-8", "replace")` does. -/
def utf8DecodeReplace : List Nat → Str
  | [] => []
  | b :: rest =>
    if b < 128 then b :: utf8DecodeReplace rest
    else if 194 ≤ b ∧ b ≤ 223 then
      match rest with
      | c1 :: r1 =>
        if contIn 128 191 c1 then ((b - 192) * 64 + (c1 - 128)) :: utf8DecodeReplace r1
        else 65533 :: utf8DecodeReplace (c1 :: r1)
      | [] => [65533]
    else if 224 ≤ b ∧ b ≤ 239 then
      match rest with
      | c1 :: r1 =>
        if (if b = 224 then contIn 160 191 c1 else if b = 237 then contIn 128 159 c1
            else contIn 128 191 c1) then
          match r1 with
          | c2 :: r2 =>
            if contIn 128 191 c2 then
              ((b - 224) * 4096 + (c1 - 128) * 64 + (c2 - 128)) :: utf8DecodeReplace r2
            else 65533 :: utf8DecodeReplace (c2 :: r2)
          | [] => [65533]
        else 65533 :: utf8DecodeReplace (c1 :: r1)
      | [] => [65533]
    else if 240 ≤ b ∧ b ≤ 244 then
      match rest with
      | c1 :: r1 =>
        if (if b = 240 then contIn 144 191 c1 else if b = 244 then contIn 128 143 c1
            else contIn 128 191 c1) then
          match r1 with
          | c2 :: r2 =>
            if contIn 128 191 c2 then
              match r2 with
              | c3 :: r3 =>
                if contIn 128 191 c3 then
                  ((b - 240) * 262144 + (c1 - 128) * 4096 + (c2 - 128) * 64 + (c3 - 128)) ::
                    utf8DecodeReplace r3
                else 65533 :: utf8DecodeReplace (c3 :: r3)
              | [] => [65533]
            else 65533 :: utf8DecodeReplace (c2 :: r2)
          | [] => [65533]
        else 65533 :: utf8DecodeReplace (c1 :: r1)
      | [] => [65533]
    else 65533 :: utf8DecodeReplace rest

def isHexDigit (c : Nat) : Bool :=
  (48 ≤ c ∧ c ≤ 57) ∨ (65 ≤ c ∧ c ≤ 70) ∨ (97 ≤ c ∧ c ≤ 102)

def hexVal (c : Nat) : Nat :=
  if c ≤ 57 then c - 48 else if c ≤ 70 then c - 55 else c - 87

/-- One scanned token of `urllib.parse.unquote`: a percent-decoded byte, or a
literal character. -/
inductive QTok where
  | byte (b : Nat)
  | ch (c : Nat)
deriving DecidableEq

/-- Scan a string into percent-decoded bytes and literal characters: `%XY`
with two hex digits yields a byte, any other `%` stays literal. -/
def pctTokens : Str → List QTok
  | [] => []
  | c :: rest =>
    if c = 37 then
      match rest with
      | a :: b :: rest2 =>
        if isHexDigit a ∧ isHexDigit b then
          QTok.byte (16 * hexVal a + hexVal b) :: pctTokens rest2
        else QTok.ch 37 :: pctTokens (a :: b :: rest2)
      | [a] => [QTok.ch c, QTok.ch a]
      | [] => [QTok.ch c]
    else QTok.ch c :: pctTokens rest

/-- Literal ASCII characters join the byte stream being UTF-8-decoded (CPython
decodes each maximal ASCII segment as one byte string); literal non-ASCII
characters pass through unchanged. -/
def tokVal (t : QTok) : Nat ⊕ Nat :=
  match t with
  | QTok.byte b => Sum.inl b
  | QTok.ch c => if c < 128 then Sum.inl c else Sum.inr c

/-- Decode a mixed stream of bytes (`inl`) and pass-through characters
(`inr`): maximal byte runs are UTF-8-decoded with replacement. -/
def decodeMixed (acc : List Nat) : List (Nat ⊕ Nat) → Str
  | [] => utf8DecodeReplace acc.reverse
  | Sum.inl b :: rest => decodeMixed (b :: acc) rest
  | Sum.inr c :: rest => utf8DecodeReplace acc.reverse ++ c :: decodeMixed [] rest

/-- `urllib.parse.unquote(s, encoding="utf-8", errors="replace")`. -/
def unquoteM (s : Str) : Str := decodeMixed [] ((pctTokens s).map tokVal)

/-- The `.replace("+", " ")` step of `parse_qsl` before unquoting. -/
def plusToSpace (s : Str) : Str := s.map (fun c => if c = 43 then 32 else c)

/-- Characters never percent-encoded by `quote` (`_ALWAYS_SAFE`:
alphanumerics and `_.-~`). -/
def alwaysSafe (b : Nat) : Bool :=
  (48 ≤ b ∧ b ≤ 57) ∨ (65 ≤ b ∧ b ≤ 90) ∨ (97 ≤ b ∧ b ≤ 122) ∨
    b = 95 ∨ b = 46 ∨ b = 45 ∨ b = 126

def hexDigitUpper (n : Nat) : Nat := if n < 10 then 48 + n else 55 + n

def quoteByte (safe : List Nat) (b : Nat) : Str :=
  if alwaysSafe b ∨ b ∈ safe then [b]
  else [37, hexDigitUpper (b / 16), hexDigitUpper (b % 16)]

/-- `urllib.parse.quote(s, safe=...)` over the UTF-8 bytes of `s`. -/
def quoteM (safe : List Nat) (s : Str) : Str :=
  ((utf8Encode s).map (quoteByte safe)).flatten

/-- `urllib.parse.quote_plus(s, safe="")`, the `quote_via` used by
`urlencode`: spaces become `+`, everything unsafe is percent-encoded. -/
def quotePlus (s : Str) : Str :=
  if 32 ∈ s then (quoteM [32] s).map (fun c => if c = 32 then 43 else c)
  else quoteM [] s

/-! ### urllib.parse: urlparse / urlunparse / parse_qsl / urlencode -/

structure UrlParts where
  scheme : Str
  netloc : Str
  path : Str
  params : Str
  query : Str
  fragment : Str
deriving DecidableEq

def isAsciiAlpha (c : Nat) : Bool := (65 ≤ c ∧ c ≤ 90) ∨ (97 ≤ c ∧ c ≤ 122)

/-- The characters allowed in a URL scheme (`scheme_chars`). -/
def isSchemeChar (c : Nat) : Bool :=
  isAsciiAlpha c ∨ (48 ≤ c ∧ c ≤ 57) ∨ c = 43 ∨ c = 45 ∨ c = 46

/-- Extract and lowercase the scheme, as `urlsplit` does: the text before the
first `:` when it is nonempty, starts with a letter and uses only scheme
characters; otherwise no scheme. -/
def splitScheme (u : Str) : Str × Str :=
  match splitFirst 58 u with
  | none => ([], u)
  | some (pre, post) =>
    match pre with
    | [] => ([], u)
    | c :: _ =>
      if isAsciiAlpha c ∧ pre.all isSchemeChar then (lowerStr pre, post) else ([], u)

/-- `_splitnetloc`: the netloc runs until the first `/`, `?` or `#`. -/
def notNetlocEnd (c : Nat) : Bool := c ≠ 47 ∧ c ≠ 63 ∧ c ≠ 35

/-- `_splitparams`: split `;params` off the last path segment only. -/
def splitParams (p : Str) : Str × Str :=
  if 47 ∈ p then
    let lastSeg := (p.reverse.takeWhile (fun c => c ≠ 47)).reverse
    let before := p.take (p.length - lastSeg.length)
    match splitFirst 59 lastSeg with
    | none => (p, [])
    | some (a, b) => (before ++ a, b)
  else
    match splitFirst 59 p with
    | none => (p, [])
    | some (a, b) => (a, b)

/-- The schemes for which `urlparse` performs params splitting
(`uses_params`; only the entries a claim can reach are listed, plus `""`). -/
def usesParams : List Str :=
  [[], ofString "ftp", ofString "hdl", ofString "prospero", ofString "http",
   ofString "imap", ofString "https", ofString "shttp", ofString "rtsp",
   ofString "rtsps", ofString "rtspu", ofString "sip", ofString "sips",
   ofString "mms", ofString "sftp", ofString "tel"]

/-- `urlsplit` removes ASCII tab, CR and LF anywhere in the URL first. -/
def removeUnsafeChars (u : Str) : Str :=
  u.filter (fun c => c ≠ 9 ∧ c ≠ 10 ∧ c ≠ 13)

/-- `urlsplit` strips leading WHATWG C0-control-or-space characters. -/
def lstripC0 (u : Str) : Str := u.dropWhile (fun c => c ≤ 32)

/-- The schemes for which `urlunsplit` re-attaches a `//` authority marker
(`uses_netloc`). -/
def usesNetloc : List Str :=
  [[], ofString "ftp", ofString "http", ofString "gopher", ofString "nntp",
   ofString "telnet", ofString "imap", ofString "wais", ofString "file",
   ofString "mms", ofString "https", ofString "shttp", ofString "snews",
   ofString "prospero", ofString "rtsp", ofString "rtsps", ofString "rtspu",
   ofString "rsync", ofString "svn", ofString "svn+ssh", ofString "sftp",
   ofString "nfs", ofString "git", ofString "git+ssh", ofString "ws",
   ofString "wss"]

/-- The `//netloc` extraction: when the rest starts with `//`, the netloc
runs to the first `/`, `?` or `#`. -/
def netlocSplit (r1 : Str) : Str × Str :=
  if r1.take 2 = [47, 47] then
    ((r1.drop 2).takeWhile notNetlocEnd, (r1.drop 2).dropWhile notNetlocEnd)
  else ([], r1)

/-- `url.split("#", 1)` when a fragment is present. -/
def fragSplit (x : Str) : Str × Str :=
  match splitFirst 35 x with
  | none => (x, [])
  | some ab => ab

/-- `url.split("?", 1)` when a query is present. -/
def querySplit (x : Str) : Str × Str :=
  match splitFirst 63 x with
  | none => (x, [])
  | some ab => ab

/-- The params split of `urlparse`, applied only for `uses_params` schemes
with a `;` in the path. -/
def paramsSplit (scheme p : Str) : Str × Str :=
  if scheme ∈ usesParams ∧ 59 ∈ p then splitParams p else (p, [])

/-- `urllib.parse.urlparse`: scheme, then `//netloc`, then fragment at the
first `#`, then query at the first `?`, then params off the last path
segment (for `uses_params` schemes). -/
def urlparseM (u0 : Str) : UrlParts :=
  let u := removeUnsafeChars (lstripC0 u0)
  let sp := splitScheme u
  let nl := netlocSplit sp.2
  let fq := fragSplit nl.2
  let pq := querySplit fq.1
  let pp := paramsSplit sp.1 pq.1
  ⟨sp.1, nl.1, pp.1, pp.2, pq.2, fq.2⟩

/-- `urllib.parse.urlunsplit`: the `//` authority marker is emitted when
there is a netloc, or when the scheme is a `uses_netloc` scheme and the path
does not already begin with `//`. -/
def urlunsplitM (scheme netloc url query fragment : Str) : Str :=
  let url1 :=
    if netloc ≠ [] ∨ (scheme ≠ [] ∧ scheme ∈ usesNetloc ∧ url.take 2 ≠ [47, 47]) then
      [47, 47] ++ netloc ++ (if url ≠ [] ∧ url.take 1 ≠ [47] then 47 :: url else url)
    else url
  let url2 := if scheme ≠ [] then scheme ++ [58] ++ url1 else url1
  let url3 := if query ≠ [] then url2 ++ [63] ++ query else url2
  if fragment ≠ [] then url3 ++ [35] ++ fragment else url3

/-- `urllib.parse.urlunparse`: re-attach `;params` to the path, then unsplit. -/
def urlunparseM (t : UrlParts) : Str :=
  urlunsplitM t.scheme t.netloc
    (if t.params ≠ [] then t.path ++ [59] ++ t.params else t.path) t.query t.fragment

/-- `urllib.parse.parse_qsl(qs, keep_blank_values=True)`: split on `&`, skip
empty fields, split each field at the first `=` (a field without `=` keeps a
blank value), `+`→space then percent-decode names and values. -/
def parseQslM (qs : Str) : List (Str × Str) :=
  if qs = [] then []
  else
    (splitAll 38 qs).filterMap (fun nv =>
      if nv = [] then none
      else
        match splitFirst 61 nv with
        | some (n, v) => some (unquoteM (plusToSpace n), unquoteM (plusToSpace v))
        | none => some (unquoteM (plusToSpace nv), []))

/-- Python dict assignment `d[k] = v` on an insertion-ordered association
list: update in place if the key exists, else append. -/
def dictUpd (d : List (Str × Str)) (k v : Str) : List (Str × Str) :=
  if d.any (fun p => p.1 = k) then d.map (fun p => if p.1 = k then (k, v) else p)
  else d ++ [(k, v)]

/-- `STRIP_QUERY_PARAMS` from the scrapers (identical in all variants). -/
def STRIP_QUERY_PARAMS : List Str :=
  [ofString "utm_source", ofString "utm_medium", ofString "utm_campaign",
   ofString "utm_term", ofString "utm_content", ofString "at_medium",
   ofString "at_campaign", ofString "at_custom1", ofString "ns_mchannel",
   ofString "ns_source", ofString "ns_campaign"]

/-- The dict comprehension
`{k: v for k, v in parse_qsl(...) if k not in STRIP_QUERY_PARAMS}`. -/
def qdict (pairs : List (Str × Str)) : List (Str × Str) :=
  pairs.foldl (fun d kv => if kv.1 ∈ STRIP_QUERY_PARAMS then d else dictUpd d kv.1 kv.2) []

/-- `urllib.parse.urlencode(q, doseq=True)` on a dict of strings:
`quote_plus` each key and value, join `k=v` fields with `&`. -/
def urlencodeM (d : List (Str × Str)) : Str :=
  joinSep [38] (d.map (fun kv => quotePlus kv.1 ++ [61] ++ quotePlus kv.2))

/-- `normalize_url` from src/ibtihel_scrapFile.py lines 39-51 (the same
function appears verbatim in src/oumaima-scrap.py lines 39-50): lowercase
scheme and host, strip fragment and tracking params, trim trailing slashes
from the path, re-encode the remaining query pairs. -/
def normalize_url (u : Str) : Str :=
  let p := urlparseM u
  let q := qdict (parseQslM p.query)
  urlunparseM
    { p with
      scheme := lowerStr p.scheme
      netloc := lowerStr p.netloc
      path := rstripSlash p.path
      query := urlencodeM q
      fragment := [] }

/-! ### Spec-side description of the query re-encoding (for claim C4) -/

/-- The last value bound to key `k` in `l`, defaulting to `v`. -/
def lastValD (v : Str) (l : List (Str × Str)) (k : Str) : Str :=
  match l with
  | [] => v
  | kv :: rest => if kv.1 = k then lastValD kv.2 rest k else lastValD v rest k

/-- Spec-side description of Python-dict semantics on a pair list: each
distinct key appears once, at the position of its first occurrence, carrying
its last value. -/
def specDedupRun : List (Str × Str) → List (Str × Str)
  | [] => []
  | kv :: rest =>
    (kv.1, lastValD kv.2 rest kv.1) :: specDedupRun (rest.filter (fun p => p.1 ≠ kv.1))
termination_by l => l.length
decreasing_by simp only [List.length_cons]; exact Nat.lt_succ_of_le (List.length_filter_le _ _)

/-- The query pairs that survive the tracking-parameter denylist. -/
def keptPairs (pairs : List (Str × Str)) : List (Str × Str) :=
  pairs.filter (fun kv => decide (kv.1 ∉ STRIP_QUERY_PARAMS))

/-- Spec-side (amended claim C4) description of the whole query transform:
drop denylisted keys, then collapse each repeated key to a single occurrence
(first position, last value). -/
def specDedupQuery (pairs : List (Str × Str)) : List (Str × Str) :=
  specDedupRun (keptPairs pairs)

/-! ### BeautifulSoup observations and `clean_join` -/

/-- An ancestor node as `clean_join`'s loop observes it: its tag name
(`getattr(anc, "name", None)`) and its class attribute tokens (empty when the
ancestor has no `get`, which yields the same "" class string). -/
structure AncNode where
  name : Option Str
  classes : List Str
deriving DecidableEq

/-- A paragraph node as `clean_join` observes it: the result of
`p.get_text(" ", strip=True)`, the class tokens, and the ancestor chain. -/
structure PNode where
  text : Str
  classes : List Str
  ancestors : List AncNode
deriving DecidableEq

/-- Boilerplate markers tested against a paragraph's own class string. -/
def pClassMarkers : List Str :=
  [ofString "promo", ofString "share", ofString "related", ofString "advert",
   ofString "cookie"]

/-- Boilerplate markers tested against an ancestor's class string (the
source lists them in a slightly different order). -/
def ancClassMarkers : List Str :=
  [ofString "promo", ofString "related", ofString "share", ofString "advert",
   ofString "cookie"]

/-- Ancestor tag names that disqualify a paragraph. -/
def badAncNames : List Str :=
  [ofString "figure", ofString "figcaption", ofString "aside",
   ofString "header", ofString "footer", ofString "nav"]

/-- `" ".join(node.get("class", [])).lower()`. -/
def classStr (classes : List Str) : Str := lowerStr (joinSep [32] classes)

/-- `any(bad in cls for bad in markers)`. -/
def hasMarker (markers : List Str) (classes : List Str) : Bool :=
  markers.any (fun m => containsSub m (classStr classes))

def badAnc (a : AncNode) : Bool :=
  (match a.name with | some n => n ∈ badAncNames | none => false) ||
    hasMarker ancClassMarkers a.classes

/-- The filter of `clean_join`'s loop body: keep a paragraph unless its text
is shorter than 3 characters, its class carries a boilerplate marker, or an
ancestor is a non-body container. -/
def keepPara (p : PNode) : Bool :=
  ¬(p.text.length < 3) ∧ ¬(hasMarker pClassMarkers p.classes = true) ∧
    ¬(p.ancestors.any badAnc = true)

/-- `clean_join` from src/ibtihel_scrapFile.py lines 58-80 (verbatim also in
src/oumaima-scrap.py lines 57-76): join surviving paragraph texts with blank
lines and strip the result. -/
def clean_join (paras : List PNode) : Str :=
  pyStrip (joinSep [10, 10] ((paras.filter keepPara).map PNode.text))

/-! ### JSON values (the `json.loads` collaborator's output) -/

inductive Json where
  | str (s : Str)
  | num (n : Int)
  | bool (b : Bool)
  | null
  | arr (l : List Json)
  | obj (kvs : List (Str × Json))

/-- Python-dict lookup on a parsed JSON object (later duplicate keys win, as
in `json.loads`). -/
def jsonGet (kvs : List (Str × Json)) (k : Str) : Option Json :=
  match kvs with
  | [] => none
  | kv :: rest =>
    match jsonGet rest k with
    | some v => some v
    | none => if kv.1 = k then some kv.2 else none

/-- `isinstance(obj, dict) and obj.get("@type") in ("NewsArticle", "Article")`. -/
def articleTypeOk (kvs : List (Str × Json)) : Bool :=
  match jsonGet kvs (ofString "@type") with
  | some (Json.str t) => t = ofString "NewsArticle" ∨ t = ofString "Article"
  | _ => false

/-- `objs = data if isinstance(data, list) else [data]`. -/
def jsonObjs (j : Json) : List Json :=
  match j with
  | Json.arr l => l
  | _ => [j]

/-- The body of the inner `for obj in objs` loop of the JSON-LD stage: adopt
`body.strip()` when `articleBody` is a string longer than the current text. -/
def jsonLdStep (cur : Str) (j : Json) : Str :=
  match j with
  | Json.obj kvs =>
    if articleTypeOk kvs then
      match jsonGet kvs (ofString "articleBody") with
      | some (Json.str body) => if cur.length < body.length then pyStrip body else cur
      | _ => cur
    else cur
  | _ => cur

/-- The `for s in soup.find_all("script", type="application/ld+json")` loop:
an unparsable block (`none`) is skipped by `continue` (bypassing the break
check); after a parsed block the loop breaks once the text reaches 800. -/
def jsonLdLoop : List (Option Json) → Str → Str
  | [], cur => cur
  | none :: rest, cur => jsonLdLoop rest cur
  | some j :: rest, cur =>
    let cur2 := (jsonObjs j).foldl jsonLdStep cur
    if 800 ≤ cur2.length then cur2 else jsonLdLoop rest cur2

/-! ### Fetched-page observations and `parse_article` -/

/-- What `parse_article` in src/ibtihel_scrapFile.py observes of a fetched,
parsed page. `Option` fields are `none` when the tag (or its attribute, for
single-option fields) is absent; `bylMeta`/`authorMeta` distinguish a present
tag with a missing attribute. `readabilityText` is `none` when
`Document(html).summary` raises. -/
structure Doc where
  canonicalHref : Option Str
  h1Text : Option Str
  ogTitle : Option Str
  bylMeta : Option (Option Str)
  authorMeta : Option (Option Str)
  ogImage : Option Str
  newsKeywords : Option Str
  keywordsMeta : Option Str
  metaPublishedTime : Option Str
  metaOrigPubDate : Option Str
  timeDatetime : Option Str
  readabilityText : Option Str
  textBlockParas : List PNode
  articleParas : List PNode
  mainParas : List PNode
  richTextParas : List PNode
  ldScripts : List (Option Json)
  ampHref : Option Str

/-- What the AMP fallback observes of the fetched AMP page. -/
structure AmpDoc where
  articleParas : List PNode
  mainParas : List PNode
  allParas : List PNode

/-- What `parse_article` in src/oumaima-scrap.py observes of a fetched page
(no byl meta, no OriginalPublicationDate meta, no JSON-LD or AMP sources). -/
structure DocO where
  canonicalHref : Option Str
  h1Text : Option Str
  ogTitle : Option Str
  authorMeta : Option (Option Str)
  ogImage : Option Str
  keywordsMeta : Option Str
  metaPublishedTime : Option Str
  timeDatetime : Option Str
  readabilityText : Option Str
  articleParas : List PNode
  mainParas : List PNode
  allParas : List PNode

/-- The external collaborators: `requests.get` (+BeautifulSoup observation)
for the two scrapers and for AMP pages (`none` models a raised fetch error),
`hashlib.sha1(...).hexdigest()` as an arbitrary fixed digest function, and
`dateutil.parser.parse(...).isoformat()` (`none` models a parse error). -/
structure Env where
  net : Str → Option Doc
  ampNet : Str → Option AmpDoc
  netO : Str → Option DocO
  sha1hex : Str → Str
  dtparse : Str → Option Str

/-- Python `a or b` on lists: the first operand unless it is empty. -/
def orL {α : Type} (a b : List α) : List α :=
  match a with
  | [] => b
  | _ => a

/-- Stage 1 (Readability): the extracted text, or `""` when the extractor
raised. -/
def stage1I (d : Doc) : Str :=
  match d.readabilityText with
  | some t => t
  | none => []

/-- Stage 2 (BBC selectors), src/ibtihel_scrapFile.py lines 138-147. -/
def stage2I (d : Doc) (cur : Str) : Str :=
  if cur.length < 800 then
    match orL d.textBlockParas (orL d.articleParas (orL d.mainParas d.richTextParas)) with
    | [] => cur
    | p :: ps =>
      let txt := clean_join (p :: ps)
      if cur.length < txt.length then txt else cur
  else cur

/-- Stage 3 (JSON-LD articleBody), src/ibtihel_scrapFile.py lines 149-163. -/
def stage3I (d : Doc) (cur : Str) : Str :=
  if cur.length < 800 then jsonLdLoop d.ldScripts cur else cur

/-- Stage 4 (AMP fallback), src/ibtihel_scrapFile.py lines 165-177; a failed
AMP fetch is swallowed. -/
def stage4I (env : Env) (d : Doc) (cur : Str) : Str :=
  if cur.length < 800 then
    match d.ampHref with
    | some amp =>
      if amp ≠ [] then
        match env.ampNet amp with
        | some ad =>
          let txt := clean_join (orL ad.articleParas (orL ad.mainParas ad.allParas))
          if cur.length < txt.length then txt else cur
        | none => cur
      else cur
    | none => cur
  else cur

/-- The full body-extraction cascade of src/ibtihel_scrapFile.py. -/
def cascadeI (env : Env) (d : Doc) : Str :=
  stage4I env d (stage3I d (stage2I d (stage1I d)))

def stage1O (d : DocO) : Str :=
  match d.readabilityText with
  | some t => t
  | none => []

/-- The selector stage of src/oumaima-scrap.py lines 118-120: when the
readability text is short, `content_text = clean_join(paras)` overwrites it
unconditionally. -/
def stage2O (d : DocO) (cur : Str) : Str :=
  if cur.length < 800 then clean_join (orL d.articleParas (orL d.mainParas d.allParas))
  else cur

/-- The body-extraction cascade of src/oumaima-scrap.py. -/
def cascadeO (d : DocO) : Str := stage2O d (stage1O d)

/-- The first truthy candidate of the published-date loop: a candidate is
taken when its element exists and the attribute value is nonempty. -/
def firstTruthy : List (Option Str) → Option Str
  | [] => none
  | none :: rest => firstTruthy rest
  | some s :: rest => if s ≠ [] then some s else firstTruthy rest

/-- Spec-side (claim C9) description of the published-date computation: the
first present date-bearing candidate, parsed, with a parse failure or a
missing candidate yielding `None`. -/
def publishedDateSpec (dtp : Str → Option Str) (cands : List (Option Str)) : Option Str :=
  match firstTruthy cands with
  | none => none
  | some s => dtp s

/-- `(soup.find("link", rel="canonical") or {}).get("href") or url`. -/
def canonicalRaw (href : Option Str) (url : Str) : Str :=
  match href with
  | some h => if h = [] then url else h
  | none => url

/-- The normalized canonical URL that `parse_article` computes. -/
def canonicalOf (href : Option Str) (url : Str) : Str :=
  normalize_url (canonicalRaw href url)

/-- `h1.get_text(strip=True) if h1 else (og:title or {}).get("content") or ""`. -/
def titleOf (h1 og : Option Str) : Str :=
  match h1 with
  | some t => t
  | none =>
    match og with
    | some c => c
    | none => []

/-- `(find byl or find author)` then `.get("content")` when a tag exists. -/
def authorOfI (byl am : Option (Option Str)) : Option Str :=
  match byl with
  | some c => c
  | none =>
    match am with
    | some c => c
    | none => none

/-- The keywords-meta handling: split on commas, strip and lowercase, drop
blanks, rejoin with `", "`, `None` when nothing remains. -/
def tagsOf (kw : Option Str) : Option Str :=
  match kw with
  | none => none
  | some content =>
    let l := (splitAll 44 content).filterMap
      (fun t => if pyStrip t = [] then none else some (lowerStr (pyStrip t)))
    if l = [] then none else some (joinSep [44, 32] l)

/-- The output record (dict) of `parse_article`. -/
structure Record where
  id_article : Str
  title : Str
  tags : Option Str
  content : Str
  url : Str
  category : Str
  source : Str
  author : Option Str
  image : Option Str
  published_date : Option Str
  content_hash : Str
deriving DecidableEq

/-- `parse_article` from src/ibtihel_scrapFile.py lines 83-203: fetch (a
failure returns `None`), extract metadata and body, reject trimmed text under
200 characters, and build the record with its two dedup keys. -/
def parse_articleI (env : Env) (url category : Str) : Option Record :=
  match env.net url with
  | none => none
  | some d =>
    let canonical := canonicalOf d.canonicalHref url
    let norm_url := normalize_url url
    let content_text := cascadeI env d
    if (pyStrip content_text).length < 200 then none
    else
      let title := titleOf d.h1Text d.ogTitle
      let id_source := if canonical ≠ [] then canonical else norm_url
      some
        { id_article := (env.sha1hex id_source).take 12
          title := title
          tags := tagsOf (match d.newsKeywords with | some c => some c | none => d.keywordsMeta)
          content := pyStrip content_text
          url := id_source
          category := category
          source := ofString "Washington Post"
          author := authorOfI d.bylMeta d.authorMeta
          image := d.ogImage
          published_date :=
            publishedDateSpec env.dtparse
              [d.metaPublishedTime, d.metaOrigPubDate, d.timeDatetime]
          content_hash := env.sha1hex (title ++ [124] ++ content_text.take 4000) }

/-- `parse_article` from src/oumaima-scrap.py lines 79-140. -/
def parse_articleO (env : Env) (url category : Str) : Option Record :=
  match env.netO url with
  | none => none
  | some d =>
    let canonical := canonicalOf d.canonicalHref url
    let norm_url := normalize_url url
    let content_text := cascadeO d
    if (pyStrip content_text).length < 200 then none
    else
      let title := titleOf d.h1Text d.ogTitle
      let id_source := if canonical ≠ [] then canonical else norm_url
      some
        { id_article := (env.sha1hex id_source).take 12
          title := title
          tags := tagsOf d.keywordsMeta
          content := pyStrip content_text
          url := id_source
          category := category
          source := ofString "Reuters"
          author := (match d.authorMeta with | some c => c | none => none)
          image := d.ogImage
          published_date :=
            publishedDateSpec env.dtparse [d.metaPublishedTime, d.timeDatetime]
          content_hash := env.sha1hex (title ++ [124] ++ content_text.take 4000) }

/-! ### The ingestion orchestrator (`main` of src/ibtihel_scrapFile.py) -/

/-- The run-local state of `main`: `seen_run_ids`, `seen_run_content` and
`new_rows`. -/
structure RunSt where
  seenRunIds : List Str
  seenRunContent : List Str
  newRows : List Record
deriving DecidableEq

/-- The acceptance condition of `main` lines 247-250: neither key is in the
persisted sets nor in the run-local sets. -/
def freshRow (seenIds seenContent : List Str) (st : RunSt) (row : Record) : Bool :=
  ¬(row.id_article ∈ seenIds ∨ row.id_article ∈ st.seenRunIds) ∧
    ¬(row.content_hash ∈ seenContent ∨ row.content_hash ∈ st.seenRunContent)

/-- One iteration of the entry loop of `main` lines 237-256: skip entries
without a (truthy) link, normalize the link, parse, reject stale keys, and on
acceptance record the row and both keys immediately. -/
def stepEntry (env : Env) (seenIds seenContent : List Str) (st : RunSt)
    (e : Str × Option Str) : RunSt :=
  match e.2 with
  | none => st
  | some link =>
    if link = [] then st
    else
      match parse_articleI env (normalize_url link) e.1 with
      | none => st
      | some row =>
        if row.id_article ∈ seenIds ∨ row.id_article ∈ st.seenRunIds then st
        else if row.content_hash ∈ seenContent ∨ row.content_hash ∈ st.seenRunContent then st
        else ⟨row.id_article :: st.seenRunIds, row.content_hash :: st.seenRunContent,
              st.newRows ++ [row]⟩

/-- The whole run over the flattened `(category, entry link)` sequence,
starting from the key sets loaded from the persisted store. -/
def runMain (env : Env) (seenIds seenContent : List Str)
    (entries : List (Str × Option Str)) : RunSt :=
  entries.foldl (stepEntry env seenIds seenContent) ⟨[], [], []⟩

/-! ### `load_existing_keys` (src/ibtihel_scrapFile.py lines 212-224) -/

/-- `load_existing_keys`, with the `os.path` observations and the two
`pd.read_csv` attempts as inputs (`Except.error` models a raised exception);
the surrounding try/except chain is translated into the match cascade, so the
modelled function always returns `Except.ok`. -/
def load_existing_keys (pathExists : Bool) (fileSize : Nat)
    (readIdHash : Except Unit (List Str × List Str))
    (readIdOnly : Except Unit (List Str)) : Except Unit (List Str × List Str) :=
  if ¬pathExists ∨ fileSize = 0 then Except.ok ([], [])
  else
    match readIdHash with
    | Except.ok r => Except.ok r
    | Except.error _ =>
      match readIdOnly with
      | Except.ok ids => Except.ok (ids, [])
      | Except.error _ => Except.ok ([], [])

/-- Spec-side (claim C10) description: absent/empty file gives two empty
sets; a failed two-column read falls back to ids alone with an empty hash
set; a second failure gives two empty sets. -/
def loadKeysClaim (pathExists : Bool) (fileSize : Nat)
    (readIdHash : Except Unit (List Str × List Str))
    (readIdOnly : Except Unit (List Str)) : List Str × List Str :=
  if ¬pathExists ∨ fileSize = 0 then ([], [])
  else
    match readIdHash with
    | Except.ok r => r
    | Except.error _ =>
      match readIdOnly with
      | Except.ok ids => (ids, [])
      | Except.error _ => ([], [])

/-! ### Other decidable side conditions used by theorems -/

/-- Every code point is a valid Unicode scalar value (what a Python `str`
can hold minus the lone surrogates that make `.encode("utf-8")` raise). -/
def validStr (s : Str) : Bool :=
  s.all (fun c => c < 1114112 ∧ ¬(55296 ≤ c ∧ c ≤ 57343))

/-- Every `articleBody` string offered by the JSON-LD scripts is already
trimmed. -/
def bodyOfObj (o : Json) : Option Str :=
  match o with
  | Json.obj kvs =>
    match jsonGet kvs (ofString "articleBody") with
    | some (Json.str b) => some b
    | _ => none
  | _ => none

def trimmedBodies (scripts : List (Option Json)) : Bool :=
  scripts.all (fun s =>
    match s with
    | none => true
    | some j => (jsonObjs j).all (fun o =>
        match bodyOfObj o with
        | none => true
        | some b => pyStrip b = b))

/-! ### Concrete inputs used by witnesses and counterexamples -/

def baseDoc : Doc :=
  ⟨none, none, none, none, none, none, none, none, none, none, none, none, [], [], [], [], [],
   none⟩

def baseDocO : DocO := ⟨none, none, none, none, none, none, none, none, none, [], [], []⟩

/-- 250 copies of `a`: a body comfortably above the 200-character gate. -/
def aText : Str := List.replicate 250 97

def catW : Str := ofString "News"

def urlW : Str := ofString "http://site.example/a"

def urlThin : Str := ofString "http://site.example/t"

def urlW9 : Str := ofString "http://site.example/d"

def docW : Doc := { baseDoc with readabilityText := some aText }

def docWO : DocO :=
  { baseDocO with readabilityText := some aText, articleParas := [⟨aText, [], []⟩] }

def docThin : Doc := { baseDoc with readabilityText := some (List.replicate 100 97) }

def docThinO : DocO := { baseDocO with readabilityText := some (List.replicate 100 97) }

def docW9 : Doc :=
  { baseDoc with
    readabilityText := some aText
    metaPublishedTime := some (ofString "2024-01-02") }

/-- A test environment: identity digest, identity date parser, three pages. -/
def envW : Env :=
  { net := fun u =>
      if u = urlW then some docW
      else if u = urlThin then some docThin
      else if u = urlW9 then some docW9
      else none
    ampNet := fun _ => none
    netO := fun u =>
      if u = urlW then some docWO
      else if u = urlThin then some docThinO
      else none
    sha1hex := fun s => s
    dtparse := fun s => some s }

/-- The record `parse_article` produces for `urlW` under `envW`. -/
def rowW : Record :=
  { id_article := ofString "http://site."
    title := []
    tags := none
    content := aText
    url := urlW
    category := catW
    source := ofString "Washington Post"
    author := none
    image := none
    published_date := none
    content_hash := 124 :: aText }

/-- The record `parse_article` produces for `urlW9` under `envW`. -/
def rowW9 : Record :=
  { id_article := ofString "http://site."
    title := []
    tags := none
    content := aText
    url := urlW9
    category := catW
    source := ofString "Washington Post"
    author := none
    image := none
    published_date := some (ofString "2024-01-02")
    content_hash := 124 :: aText }

/-- A JSON-LD article object with the given body. -/
def ldObj (body : Str) : Json :=
  Json.obj [(ofString "@type", Json.str (ofString "Article")),
            (ofString "articleBody", Json.str body)]

/-- 12 spaces followed by 195 `a`s: length 207, trimmed length 195. -/
def padBody : Str := List.replicate 12 32 ++ List.replicate 195 97

def goodBody : Str := List.replicate 260 98

def urlC7 : Str := ofString "http://site.example/j"

def urlC7b : Str := ofString "http://site.example/k"

def docC7pad : Doc := { baseDoc with ldScripts := [some (ldObj padBody)] }

def docC7good : Doc := { baseDoc with ldScripts := [some (ldObj goodBody)] }

def envC7 : Env :=
  { net := fun u =>
      if u = urlC7 then some docC7pad
      else if u = urlC7b then some docC7good
      else none
    ampNet := fun _ => none
    netO := fun _ => none
    sha1hex := fun s => s
    dtparse := fun _ => none }

def urlC8a : Str := ofString "http://aaaa.example.com/x"

def urlC8b : Str := ofString "http://bbbb.example.com/x"

/-- A page that declares the degenerate canonical link `#`. -/
def docC8 : Doc :=
  { baseDoc with canonicalHref := some (ofString "#"), readabilityText := some aText }

def envC8 : Env :=
  { net := fun u => if u = urlC8a ∨ u = urlC8b then some docC8 else none
    ampNet := fun _ => none
    netO := fun _ => none
    sha1hex := fun s => s
    dtparse := fun _ => none }

/-- A page that declares a proper canonical link. -/
def docC8w : Doc :=
  { baseDoc with
    canonicalHref := some (ofString "http://canon.example/s")
    readabilityText := some aText }

def envC8w : Env :=
  { net := fun _ => some docC8w
    ampNet := fun _ => none
    netO := fun _ => none
    sha1hex := fun s => s
    dtparse := fun _ => none }

def urlC8w1 : Str := ofString "http://x1.example/p?a=1"

def urlC8w2 : Str := ofString "http://x2.example/p"

/-- Readability yields 500 characters, every selector matches nothing. -/
def docC3 : DocO := { baseDocO with readabilityText := some (List.replicate 500 97) }

def uC5a : Str := ofString "https://www.bbc.co.uk/news/world-123?id=7&utm_source=tw#section"

def uC5b : Str := ofString "https://www.bbc.co.uk/news/world-123?id=7"

def uC6 : Str := ofString "https://www.bbc.co.uk/news/world-123?id=7&utm_source=x"

def uC6cex : Str := ofString "http://h/a/;x/"

def entriesW : List (Str × Option Str) := [(catW, some urlW)]

/-! ## Theorems -/

theorem dropWhile_head_false {p : Nat → Bool} {l : Str} {c : Nat} {t : Str}
    (h : l.dropWhile p = c :: t) : p c = false := by
  induction l with
  | nil => simp [List.dropWhile] at h
  | cons a l ih =>
    rw [List.dropWhile_cons] at h
    by_cases hp : p a = true
    · rw [if_pos hp] at h
      exact ih h
    · rw [if_neg hp] at h
      cases h
      simpa using hp

theorem dropWhile_eq_self_of_head {p : Nat → Bool} {l : Str}
    (h : ∀ c t, l = c :: t → p c = false) : l.dropWhile p = l := by
  cases l with
  | nil => rfl
  | cons a t => rw [List.dropWhile_cons, h a t rfl]; simp

theorem pyStrip_idem (s : Str) : pyStrip (pyStrip s) = pyStrip s := by
  have key : ∀ (x : Str) (c : Nat) (t : Str), x.dropWhile isWs = c :: t → isWs c = false :=
    fun x c t h => dropWhile_head_false h
  unfold pyStrip
  generalize hA : s.dropWhile isWs = A
  generalize hB : A.reverse.dropWhile isWs = B
  have h1 : B.reverse.dropWhile isWs = B.reverse := by
    apply dropWhile_eq_self_of_head
    intro c t hct
    have hsplit : A.reverse.takeWhile isWs ++ B = A.reverse := by
      rw [← hB]
      exact List.takeWhile_append_dropWhile _ _
    have hA2 : B.reverse ++ (A.reverse.takeWhile isWs).reverse = A := by
      have h := congrArg List.reverse hsplit
      simpa [List.reverse_append] using h
    apply key s c (t ++ (A.reverse.takeWhile isWs).reverse)
    rw [hA]
    conv_lhs => rw [← hA2]
    rw [hct]
    simp
  rw [h1]
  have h2 : B.reverse.reverse.dropWhile isWs = B := by
    rw [List.reverse_reverse]
    apply dropWhile_eq_self_of_head
    intro c t hct
    exact key A.reverse c t (by rw [hB, hct])
  rw [h2]

/-- C10: `load_existing_keys` never raises: an absent or empty store yields
two empty sets, a failed two-column read falls back to ids with an empty
hash set, and a second failure yields two empty sets, so a corrupt store
silently disables cross-run deduplication instead of aborting. -/
theorem load_existing_keys_total_fallback :
    ∀ (pathExists : Bool) (fileSize : Nat)
      (readIdHash : Except Unit (List Str × List Str))
      (readIdOnly : Except Unit (List Str)),
      load_existing_keys pathExists fileSize readIdHash readIdOnly =
        Except.ok (loadKeysClaim pathExists fileSize readIdHash readIdOnly) := by
  intro pathExists fileSize readIdHash readIdOnly
  unfold load_existing_keys loadKeysClaim
  split_ifs with h
  · rfl
  · cases readIdHash with
    | ok r => rfl
    | error e =>
      cases readIdOnly with
      | ok ids => rfl
      | error e2 => rfl

/-- C9: the `published_date` of every record produced by `parse_article` is
the first present (nonempty) candidate among the structured publish-time
meta, the OriginalPublicationDate meta and a time element's datetime, parsed
with failures and absence both collapsing to `None`; date handling is total
and never prevents the record from being produced. -/
theorem parse_article_published_date :
    ∀ (env : Env) (url cat : Str) (d : Doc) (r : Record),
      env.net url = some d → parse_articleI env url cat = some r →
      r.published_date =
        publishedDateSpec env.dtparse
          [d.metaPublishedTime, d.metaOrigPubDate, d.timeDatetime] := by
  intro env url cat d r hnet hp
  unfold parse_articleI at hp
  rw [hnet] at hp
  dsimp only at hp
  split at hp
  · cases hp
  · cases hp
    rfl

theorem parse_article_published_date_witness :
    rowW9.published_date =
      publishedDateSpec envW.dtparse
        [docW9.metaPublishedTime, docW9.metaOrigPubDate, docW9.timeDatetime] :=
  parse_article_published_date envW urlW9 catW docW9 rowW9 rfl (by decide)

/-- C2: a record returned by either variant's `parse_article` has trimmed
content of length at least 200, and whenever the cascade's trimmed output is
shorter than 200 the function returns `None` instead of a record. -/
theorem parse_article_min_content :
    ∀ (env : Env) (url cat : Str),
      (∀ r, parse_articleI env url cat = some r → 200 ≤ (pyStrip r.content).length) ∧
      (∀ r, parse_articleO env url cat = some r → 200 ≤ (pyStrip r.content).length) ∧
      (∀ d, env.net url = some d → (pyStrip (cascadeI env d)).length < 200 →
        parse_articleI env url cat = none) ∧
      (∀ d, env.netO url = some d → (pyStrip (cascadeO d)).length < 200 →
        parse_articleO env url cat = none) := by
  intro env url cat
  refine ⟨?_, ?_, ?_, ?_⟩
  · intro r hp
    unfold parse_articleI at hp
    cases hnet : env.net url with
    | none => rw [hnet] at hp; cases hp
    | some d =>
      rw [hnet] at hp
      dsimp only at hp
      split at hp
      · cases hp
      · next hlen =>
        cases hp
        dsimp only
        rw [pyStrip_idem]
        omega
  · intro r hp
    unfold parse_articleO at hp
    cases hnet : env.netO url with
    | none => rw [hnet] at hp; cases hp
    | some d =>
      rw [hnet] at hp
      dsimp only at hp
      split at hp
      · cases hp
      · next hlen =>
        cases hp
        dsimp only
        rw [pyStrip_idem]
        omega
  · intro d hnet hlt
    unfold parse_articleI
    rw [hnet]
    dsimp only
    rw [if_pos hlt]
  · intro d hnet hlt
    unfold parse_articleO
    rw [hnet]
    dsimp only
    rw [if_pos hlt]

theorem parse_article_min_content_witness :
    200 ≤ (pyStrip rowW.content).length ∧ parse_articleI envW urlThin catW = none := by
  constructor
  · exact (parse_article_min_content envW urlW catW).1 rowW (by decide)
  · exact (parse_article_min_content envW urlThin catW).2.2.1 docThin rfl (by decide)

theorem jsonLdStep_le (cur : Str) (j : Json)
    (ht : ∀ b, bodyOfObj j = some b → pyStrip b = b) :
    cur.length ≤ (jsonLdStep cur j).length := by
  cases j with
  | obj kvs =>
    dsimp only [jsonLdStep]
    by_cases h1 : articleTypeOk kvs = true
    · rw [if_pos h1]
      cases hg : jsonGet kvs (ofString "articleBody") with
      | none => exact le_rfl
      | some v =>
        cases v with
        | str body =>
          dsimp only
          by_cases h2 : cur.length < body.length
          · rw [if_pos h2]
            have hb : pyStrip body = body := by
              apply ht
              unfold bodyOfObj
              dsimp only
              rw [hg]
            rw [hb]
            omega
          · rw [if_neg h2]
        | num n => exact le_rfl
        | bool b => exact le_rfl
        | null => exact le_rfl
        | arr l => exact le_rfl
        | obj kvs2 => exact le_rfl
    · rw [if_neg h1]
  | str s => exact le_rfl
  | num n => exact le_rfl
  | bool b => exact le_rfl
  | null => exact le_rfl
  | arr l => exact le_rfl

theorem foldl_jsonLdStep_le (objs : List Json) :
    ∀ cur : Str, (∀ j ∈ objs, ∀ b, bodyOfObj j = some b → pyStrip b = b) →
      cur.length ≤ (objs.foldl jsonLdStep cur).length := by
  induction objs with
  | nil => intro cur _; exact le_rfl
  | cons o os ih =>
    intro cur h
    rw [List.foldl_cons]
    calc cur.length ≤ (jsonLdStep cur o).length :=
          jsonLdStep_le cur o (h o (List.mem_cons_self o os))
      _ ≤ (os.foldl jsonLdStep (jsonLdStep cur o)).length :=
          ih _ (fun j hj => h j (List.mem_cons_of_mem o hj))

theorem trimmedBodies_cons_some {j : Json} {rest : List (Option Json)}
    (h : trimmedBodies (some j :: rest) = true) :
    (∀ o ∈ jsonObjs j, ∀ b, bodyOfObj o = some b → pyStrip b = b) ∧
      trimmedBodies rest = true := by
  unfold trimmedBodies at h
  rw [List.all_cons, Bool.and_eq_true] at h
  constructor
  · intro o ho b hb
    have := List.all_eq_true.mp h.1 o ho
    rw [hb] at this
    exact of_decide_eq_true this
  · exact h.2

theorem jsonLdLoop_le (scripts : List (Option Json)) :
    ∀ cur : Str, trimmedBodies scripts = true →
      cur.length ≤ (jsonLdLoop scripts cur).length := by
  induction scripts with
  | nil => intro cur _; exact le_rfl
  | cons s rest ih =>
    intro cur h
    cases s with
    | none =>
      have hrest : trimmedBodies rest = true := by
        unfold trimmedBodies at h
        rw [List.all_cons, Bool.and_eq_true] at h
        exact h.2
      exact ih cur hrest
    | some j =>
      obtain ⟨hobjs, hrest⟩ := trimmedBodies_cons_some h
      show cur.length ≤ (if 800 ≤ ((jsonObjs j).foldl jsonLdStep cur).length
        then (jsonObjs j).foldl jsonLdStep cur
        else jsonLdLoop rest ((jsonObjs j).foldl jsonLdStep cur)).length
      have h1 : cur.length ≤ ((jsonObjs j).foldl jsonLdStep cur).length :=
        foldl_jsonLdStep_le _ _ hobjs
      split_ifs with h800
      · exact h1
      · exact le_trans h1 (ih _ hrest)

theorem stage2I_le (d : Doc) (cur : Str) : cur.length ≤ (stage2I d cur).length := by
  unfold stage2I
  split_ifs with h
  · split
    · exact le_rfl
    · dsimp only
      split_ifs with h2
      · omega
      · exact le_rfl
  · exact le_rfl

theorem stage3I_le (d : Doc) (cur : Str) (ht : trimmedBodies d.ldScripts = true) :
    cur.length ≤ (stage3I d cur).length := by
  unfold stage3I
  split_ifs with h
  · exact jsonLdLoop_le _ _ ht
  · exact le_rfl

theorem stage4I_le (env : Env) (d : Doc) (cur : Str) : cur.length ≤ (stage4I env d cur).length := by
  unfold stage4I
  split_ifs with h
  · cases d.ampHref with
    | none => exact le_rfl
    | some amp =>
      dsimp only
      split_ifs with h2
      · cases env.ampNet amp with
        | none => exact le_rfl
        | some ad =>
          dsimp only
          split_ifs with h3
          · omega
          · exact le_rfl
      · exact le_rfl
  · exact le_rfl

/-- C3 (amended): in the ibtihel variant each stage after the first runs
only while the current best text is shorter than 800 characters, the
selector and AMP stages replace the current best only if strictly longer,
and — provided every JSON-LD `articleBody` is already trimmed — the JSON-LD
stage is monotone too, so the final `content_text` is never shorter than the
readability stage's text; in the oumaima variant the selector stage
overwrites the current best unconditionally (see the counterexample). -/
theorem cascade_monotoneI :
    ∀ (env : Env) (d : Doc) (cur : Str),
      (800 ≤ cur.length →
        stage2I d cur = cur ∧ stage3I d cur = cur ∧ stage4I env d cur = cur) ∧
      cur.length ≤ (stage2I d cur).length ∧
      (trimmedBodies d.ldScripts = true → cur.length ≤ (stage3I d cur).length) ∧
      cur.length ≤ (stage4I env d cur).length ∧
      (trimmedBodies d.ldScripts = true → (stage1I d).length ≤ (cascadeI env d).length) := by
  intro env d cur
  refine ⟨?_, stage2I_le d cur, fun ht => stage3I_le d cur ht, stage4I_le env d cur, ?_⟩
  · intro h800
    refine ⟨?_, ?_, ?_⟩
    · unfold stage2I; rw [if_neg (by omega)]
    · unfold stage3I; rw [if_neg (by omega)]
    · unfold stage4I; rw [if_neg (by omega)]
  · intro ht
    unfold cascadeI
    calc (stage1I d).length ≤ (stage2I d (stage1I d)).length := stage2I_le _ _
      _ ≤ (stage3I d (stage2I d (stage1I d))).length := stage3I_le _ _ ht
      _ ≤ (stage4I env d (stage3I d (stage2I d (stage1I d)))).length := stage4I_le _ _ _

/-- C3 counterexample: for a page whose readability stage yields 500
characters while every selector matches nothing, the oumaima cascade's final
text is strictly shorter than the earlier stage's text (the claim says the
final text is never shorter than any earlier stage's). -/
theorem cascade_monotone_cex :
    (cascadeO docC3).length < (stage1O docC3).length := by decide

theorem cascade_monotoneI_witness :
    stage2I docW (List.replicate 800 97) = List.replicate 800 97 ∧
      (stage1I docW).length ≤ (cascadeI envW docW).length := by
  refine ⟨((cascade_monotoneI envW docW (List.replicate 800 97)).1 (by decide)).1, ?_⟩
  exact (cascade_monotoneI envW docW []).2.2.2.2 (by decide)

theorem jsonLdLoop_single (kvs : List (Str × Json)) (cur body : Str)
    (h1 : articleTypeOk kvs = true)
    (h2 : jsonGet kvs (ofString "articleBody") = some (Json.str body)) :
    jsonLdLoop [some (Json.obj kvs)] cur =
      if cur.length < body.length then pyStrip body else cur := by
  have hstep : jsonLdStep cur (Json.obj kvs) =
      if cur.length < body.length then pyStrip body else cur := by
    dsimp only [jsonLdStep]
    rw [if_pos h1, h2]
  show (if 800 ≤ ((jsonObjs (Json.obj kvs)).foldl jsonLdStep cur).length
      then (jsonObjs (Json.obj kvs)).foldl jsonLdStep cur
      else jsonLdLoop [] ((jsonObjs (Json.obj kvs)).foldl jsonLdStep cur)) =
    if cur.length < body.length then pyStrip body else cur
  dsimp only [jsonObjs]
  rw [List.foldl_cons, List.foldl_nil, hstep]
  split_ifs <;> rfl

/-- C7 counterexample: a document whose only body source is a JSON-LD
Article block whose `articleBody` has 207 characters (12 leading spaces and
195 letters) yields no record at all, although the claim promises that an
articleBody of at least 200 characters becomes the record's content. -/
theorem jsonld_cex :
    200 ≤ padBody.length ∧ parse_articleI envC7 urlC7 catW = none := by decide

/-- C7 (amended): an unparsable JSON-LD block is skipped without aborting
the extraction; a parsed Article-like object's `articleBody` is adopted — in
trimmed form — exactly when the untrimmed body is longer than the current
best; and a document whose only body source is such a block yields the
trimmed articleBody as the record's content when the trimmed text is at
least 200 characters, and rejection otherwise. -/
theorem jsonld_stage_spec :
    (∀ (rest : List (Option Json)) (cur : Str),
      jsonLdLoop (none :: rest) cur = jsonLdLoop rest cur) ∧
    (∀ (kvs : List (Str × Json)) (cur body : Str),
      articleTypeOk kvs = true →
      jsonGet kvs (ofString "articleBody") = some (Json.str body) →
      jsonLdLoop [some (Json.obj kvs)] cur =
        if cur.length < body.length then pyStrip body else cur) ∧
    (∀ (env : Env) (url cat : Str) (d : Doc) (body : Str),
      env.net url = some d → d.readabilityText = none →
      d.textBlockParas = [] → d.articleParas = [] → d.mainParas = [] →
      d.richTextParas = [] → d.ampHref = none →
      d.ldScripts = [some (ldObj body)] →
      ((pyStrip body).length < 200 → parse_articleI env url cat = none) ∧
      (200 ≤ (pyStrip body).length →
        ∃ r, parse_articleI env url cat = some r ∧ r.content = pyStrip body)) := by
  refine ⟨fun rest cur => rfl, jsonLdLoop_single, ?_⟩
  intro env url cat d body hnet hread htb ha hm hr hamp hld
  have e1 : stage1I d = [] := by unfold stage1I; rw [hread]
  have e2 : stage2I d [] = [] := by
    unfold stage2I
    rw [htb, ha, hm, hr]
    rfl
  have e3 : stage3I d [] = if (0 : Nat) < body.length then pyStrip body else [] := by
    unfold stage3I
    rw [if_pos (by norm_num), hld]
    have := jsonLdLoop_single
      [(ofString "@type", Json.str (ofString "Article")),
       (ofString "articleBody", Json.str body)] [] body rfl rfl
    simpa [ldObj] using this
  have e4 : ∀ X : Str, stage4I env d X = X := by
    intro X
    unfold stage4I
    rw [hamp]
    split_ifs <;> rfl
  have hcasc : cascadeI env d = pyStrip body := by
    unfold cascadeI
    rw [e1, e2, e3, e4]
    split_ifs with hb
    · rfl
    · have : body = [] := List.length_eq_zero.mp (by omega)
      rw [this]
      rfl
  constructor
  · intro hlen
    unfold parse_articleI
    rw [hnet]
    dsimp only
    rw [hcasc, pyStrip_idem, if_pos hlen]
  · intro hlen
    unfold parse_articleI
    rw [hnet]
    dsimp only
    rw [hcasc, pyStrip_idem, if_neg (by omega)]
    exact ⟨_, rfl, rfl⟩

theorem jsonld_stage_spec_witness :
    ((pyStrip goodBody).length < 200 → parse_articleI envC7 urlC7b catW = none) ∧
      ∃ r, parse_articleI envC7 urlC7b catW = some r ∧ r.content = pyStrip goodBody := by
  have h := jsonld_stage_spec.2.2 envC7 urlC7b catW docC7good goodBody
    rfl rfl rfl rfl rfl rfl rfl rfl
  exact ⟨h.1, h.2 (by decide)⟩

/-- C8 counterexample: two pages on different hosts both declare the
degenerate canonical link `#`, whose normalization is the empty string; the
normalized canonical URLs are equal, yet the two parses produce different
`id_article` values (the id falls back to the per-URL normalized request
URL whenever the normalized canonical is empty, not only when no canonical
link is declared). -/
theorem id_article_cex :
    canonicalOf docC8.canonicalHref urlC8a = canonicalOf docC8.canonicalHref urlC8b ∧
      (parse_articleI envC8 urlC8a catW).map Record.id_article =
        some (ofString "http://aaaa.") ∧
      (parse_articleI envC8 urlC8b catW).map Record.id_article =
        some (ofString "http://bbbb.") ∧
      ofString "http://aaaa." ≠ ofString "http://bbbb." := by decide

/-- C8 (amended): `id_article` is the truncated digest of the normalized
canonical URL, falling back to the normalized request URL when the page
declares no canonical link, declares an empty href, or the declared
canonical normalizes to the empty string; any two parses whose normalized
canonical URLs are equal and nonempty yield the same `id_article`. -/
theorem id_article_of_canonical :
    ∀ (env : Env) (u1 u2 c1 c2 : Str) (d1 d2 : Doc) (r1 r2 : Record),
      env.net u1 = some d1 → env.net u2 = some d2 →
      parse_articleI env u1 c1 = some r1 → parse_articleI env u2 c2 = some r2 →
      canonicalOf d1.canonicalHref u1 = canonicalOf d2.canonicalHref u2 →
      canonicalOf d1.canonicalHref u1 ≠ [] →
      r1.id_article = r2.id_article := by
  intro env u1 u2 c1 c2 d1 d2 r1 r2 hn1 hn2 hp1 hp2 hceq hne
  unfold parse_articleI at hp1 hp2
  rw [hn1] at hp1
  rw [hn2] at hp2
  dsimp only at hp1 hp2
  split at hp1
  · cases hp1
  · split at hp2
    · cases hp2
    · cases hp1
      cases hp2
      dsimp only
      have hne2 : canonicalOf d2.canonicalHref u2 ≠ [] := hceq ▸ hne
      rw [hceq, if_pos hne2]

theorem id_article_of_canonical_witness :
    (parse_articleI envC8w urlC8w1 catW).map Record.id_article =
      (parse_articleI envC8w urlC8w2 catW).map Record.id_article := by
  cases h1 : parse_articleI envC8w urlC8w1 catW with
  | none => exact absurd h1 (by decide)
  | some r1 =>
    cases h2 : parse_articleI envC8w urlC8w2 catW with
    | none => exact absurd h2 (by decide)
    | some r2 =>
      dsimp only [Option.map]
      exact congrArg some
        (id_article_of_canonical envC8w urlC8w1 urlC8w2 catW catW docC8w docC8w r1 r2
          rfl rfl h1 h2 (by decide) (by decide))

theorem stepEntry_sub (env : Env) (A B : List Str) (st : RunSt) (e : Str × Option Str) :
    st.seenRunIds ⊆ (stepEntry env A B st e).seenRunIds ∧
      st.seenRunContent ⊆ (stepEntry env A B st e).seenRunContent := by
  rcases e with ⟨cat, lnk⟩
  cases lnk with
  | none => exact ⟨fun x hx => hx, fun x hx => hx⟩
  | some link =>
    unfold stepEntry
    dsimp only
    by_cases hempty : link = []
    · rw [if_pos hempty]
      exact ⟨fun x hx => hx, fun x hx => hx⟩
    · rw [if_neg hempty]
      cases hp : parse_articleI env (normalize_url link) cat with
      | none => exact ⟨fun x hx => hx, fun x hx => hx⟩
      | some row =>
        dsimp only
        split_ifs with h1 h2
        · exact ⟨fun x hx => hx, fun x hx => hx⟩
        · exact ⟨fun x hx => hx, fun x hx => hx⟩
        · exact ⟨fun x hx => List.mem_cons_of_mem _ hx, fun x hx => List.mem_cons_of_mem _ hx⟩

theorem foldl_step_sub (env : Env) (A B : List Str) :
    ∀ (l : List (Str × Option Str)) (st : RunSt),
      st.seenRunIds ⊆ (List.foldl (stepEntry env A B) st l).seenRunIds ∧
        st.seenRunContent ⊆ (List.foldl (stepEntry env A B) st l).seenRunContent := by
  intro l
  induction l with
  | nil => exact fun st => ⟨fun x hx => hx, fun x hx => hx⟩
  | cons e t ih =>
    intro st
    rw [List.foldl_cons]
    exact ⟨(stepEntry_sub env A B st e).1.trans (ih (stepEntry env A B st e)).1,
           (stepEntry_sub env A B st e).2.trans (ih (stepEntry env A B st e)).2⟩

theorem run_covers (env : Env) (A B : List Str) :
    ∀ (l : List (Str × Option Str)) (st : RunSt) (cat link : Str) (row : Record),
      (cat, some link) ∈ l → link ≠ [] →
      parse_articleI env (normalize_url link) cat = some row →
      row.id_article ∈ A ∨
        row.id_article ∈ (List.foldl (stepEntry env A B) st l).seenRunIds ∨
        row.content_hash ∈ B ∨
        row.content_hash ∈ (List.foldl (stepEntry env A B) st l).seenRunContent := by
  intro l
  induction l with
  | nil => intro st cat link row h; exact absurd h (List.not_mem_nil _)
  | cons e t ih =>
    intro st cat link row hmem hlink hp
    rw [List.foldl_cons]
    rcases List.mem_cons.mp hmem with heq | hmem2
    · subst heq
      have hkey : row.id_article ∈ A ∨
          row.id_article ∈ (stepEntry env A B st (cat, some link)).seenRunIds ∨
          row.content_hash ∈ B ∨
          row.content_hash ∈ (stepEntry env A B st (cat, some link)).seenRunContent := by
        unfold stepEntry
        dsimp only
        rw [if_neg hlink, hp]
        dsimp only
        split_ifs with h1 h2
        · rcases h1 with hA | hrun
          · exact Or.inl hA
          · exact Or.inr (Or.inl hrun)
        · rcases h2 with hB | hrun
          · exact Or.inr (Or.inr (Or.inl hB))
          · exact Or.inr (Or.inr (Or.inr hrun))
        · exact Or.inr (Or.inl (List.mem_cons_self _ _))
      have hmono := foldl_step_sub env A B t (stepEntry env A B st (cat, some link))
      rcases hkey with h | h | h | h
      · exact Or.inl h
      · exact Or.inr (Or.inl (hmono.1 h))
      · exact Or.inr (Or.inr (Or.inl h))
      · exact Or.inr (Or.inr (Or.inr (hmono.2 h)))
    · exact ih (stepEntry env A B st e) cat link row hmem2 hlink hp

theorem run_rejects (env : Env) (A B : List Str) :
    ∀ (l : List (Str × Option Str)) (st : RunSt),
      (∀ cat link row, (cat, some link) ∈ l → link ≠ [] →
        parse_articleI env (normalize_url link) cat = some row →
        row.id_article ∈ A ∨ row.content_hash ∈ B) →
      List.foldl (stepEntry env A B) st l = st := by
  intro l
  induction l with
  | nil => intro st _; rfl
  | cons e t ih =>
    intro st h
    rw [List.foldl_cons]
    have hstep : stepEntry env A B st e = st := by
      rcases e with ⟨cat, lnk⟩
      cases lnk with
      | none => rfl
      | some link =>
        unfold stepEntry
        dsimp only
        by_cases hempty : link = []
        · rw [if_pos hempty]
        · rw [if_neg hempty]
          cases hp : parse_articleI env (normalize_url link) cat with
          | none => rfl
          | some row =>
            dsimp only
            rcases h cat link row (List.mem_cons_self _ _) hempty hp with hid | hhash
            · rw [if_pos (Or.inl hid)]
            · by_cases hid2 : row.id_article ∈ A ∨ row.id_article ∈ st.seenRunIds
              · rw [if_pos hid2]
              · rw [if_neg hid2, if_pos (Or.inl hhash)]
    rw [hstep]
    exact ih st (fun cat link row hm => h cat link row (List.mem_cons_of_mem e hm))

/-- C1: a candidate record is appended to the run's accepted list if and
only if its `id_article` is in neither the persisted id set nor the
run-local id set and its `content_hash` is in neither hash set, with both
keys inserted into the run-local sets at the same step; consequently a
second run over unchanged inputs, whose persisted sets additionally contain
the first run's accepted keys, accepts zero new records. -/
theorem orchestrator_dedup :
    ∀ (env : Env) (seenIds seenContent : List Str),
      (∀ (st : RunSt) (cat link : Str) (row : Record),
        parse_articleI env (normalize_url link) cat = some row → link ≠ [] →
        (freshRow seenIds seenContent st row = true →
          stepEntry env seenIds seenContent st (cat, some link) =
            ⟨row.id_article :: st.seenRunIds, row.content_hash :: st.seenRunContent,
             st.newRows ++ [row]⟩) ∧
        (freshRow seenIds seenContent st row = false →
          stepEntry env seenIds seenContent st (cat, some link) = st)) ∧
      (∀ entries : List (Str × Option Str),
        (runMain env
          (seenIds ++ (runMain env seenIds seenContent entries).seenRunIds)
          (seenContent ++ (runMain env seenIds seenContent entries).seenRunContent)
          entries).newRows = []) := by
  intro env seenIds seenContent
  constructor
  · intro st cat link row hp hlink
    constructor
    · intro hfresh
      have hf : ¬(row.id_article ∈ seenIds ∨ row.id_article ∈ st.seenRunIds) ∧
          ¬(row.content_hash ∈ seenContent ∨ row.content_hash ∈ st.seenRunContent) := by
        simpa [freshRow] using hfresh
      unfold stepEntry
      dsimp only
      rw [if_neg hlink, hp]
      dsimp only
      rw [if_neg hf.1, if_neg hf.2]
    · intro hfresh
      have hf : (row.id_article ∈ seenIds ∨ row.id_article ∈ st.seenRunIds) ∨
          (row.content_hash ∈ seenContent ∨ row.content_hash ∈ st.seenRunContent) := by
        by_cases h1 : row.id_article ∈ seenIds ∨ row.id_article ∈ st.seenRunIds
        · exact Or.inl h1
        · by_cases h2 : row.content_hash ∈ seenContent ∨
              row.content_hash ∈ st.seenRunContent
          · exact Or.inr h2
          · exfalso
            have htrue : freshRow seenIds seenContent st row = true := by
              simp [freshRow, h1, h2]
            rw [hfresh] at htrue
            exact Bool.noConfusion htrue
      unfold stepEntry
      dsimp only
      rw [if_neg hlink, hp]
      dsimp only
      rcases hf with h1 | h2
      · rw [if_pos h1]
      · by_cases h1 : row.id_article ∈ seenIds ∨ row.id_article ∈ st.seenRunIds
        · rw [if_pos h1]
        · rw [if_neg h1, if_pos h2]
  · intro entries
    have hcov : ∀ cat link row, (cat, some link) ∈ entries → link ≠ [] →
        parse_articleI env (normalize_url link) cat = some row →
        row.id_article ∈
            seenIds ++ (runMain env seenIds seenContent entries).seenRunIds ∨
          row.content_hash ∈
            seenContent ++ (runMain env seenIds seenContent entries).seenRunContent := by
      intro cat link row hmem hlink hp
      have hcov2 := run_covers env seenIds seenContent entries ⟨[], [], []⟩ cat link row
        hmem hlink hp
      rcases hcov2 with h | h | h | h
      · exact Or.inl (List.mem_append.mpr (Or.inl h))
      · exact Or.inl (List.mem_append.mpr (Or.inr h))
      · exact Or.inr (List.mem_append.mpr (Or.inl h))
      · exact Or.inr (List.mem_append.mpr (Or.inr h))
    have hrej : runMain env
        (seenIds ++ (runMain env seenIds seenContent entries).seenRunIds)
        (seenContent ++ (runMain env seenIds seenContent entries).seenRunContent)
        entries = ⟨[], [], []⟩ :=
      run_rejects env _ _ entries ⟨[], [], []⟩ hcov
    rw [hrej]

theorem orchestrator_dedup_witness :
    stepEntry envW [] [] ⟨[], [], []⟩ (catW, some urlW) =
      ⟨[rowW.id_article], [rowW.content_hash], [rowW]⟩ ∧
    (runMain envW ([] ++ (runMain envW [] [] entriesW).seenRunIds)
      ([] ++ (runMain envW [] [] entriesW).seenRunContent) entriesW).newRows = [] := by
  constructor
  · exact ((orchestrator_dedup envW [] []).1 ⟨[], [], []⟩ catW urlW rowW
      (by decide) (by decide)).1 (by decide)
  · exact (orchestrator_dedup envW [] []).2 entriesW

theorem dictUpd_mem {d : List (Str × Str)} {k : Str} (v : Str)
    (h : k ∈ d.map Prod.fst) :
    dictUpd d k v = d.map (fun p => if p.1 = k then (k, v) else p) := by
  unfold dictUpd
  rw [if_pos]
  rw [List.any_eq_true]
  obtain ⟨p, hp, hfst⟩ := List.mem_map.mp h
  exact ⟨p, hp, by simp [hfst]⟩

theorem dictUpd_not_mem {d : List (Str × Str)} {k : Str} (v : Str)
    (h : ¬ k ∈ d.map Prod.fst) :
    dictUpd d k v = d ++ [(k, v)] := by
  unfold dictUpd
  rw [if_neg]
  rw [List.any_eq_true]
  rintro ⟨p, hp, hfst⟩
  exact h (List.mem_map.mpr ⟨p, hp, by simpa using hfst⟩)

theorem keys_map_upd (d : List (Str × Str)) (k v : Str) :
    (d.map (fun p => if p.1 = k then (k, v) else p)).map Prod.fst = d.map Prod.fst := by
  rw [List.map_map]
  apply List.map_congr_left
  intro p _
  by_cases hp : p.1 = k
  · simp [hp]
  · simp [hp]

theorem lastValD_cons (v : Str) (q : Str × Str) (l : List (Str × Str)) (k : Str) :
    lastValD v (q :: l) k = if q.1 = k then lastValD q.2 l k else lastValD v l k := rfl

theorem lastValD_filter {p : Str × Str → Bool} {l : List (Str × Str)} {k : Str}
    (h : ∀ q ∈ l, q.1 = k → p q = true) :
    ∀ v, lastValD v (l.filter p) k = lastValD v l k := by
  induction l with
  | nil => intro v; rfl
  | cons q rest ih =>
    intro v
    rw [List.filter_cons]
    by_cases hq : p q = true
    · rw [if_pos hq]
      rw [lastValD_cons, lastValD_cons]
      by_cases hk : q.1 = k
      · rw [if_pos hk, if_pos hk]
        exact ih (fun x hx hxk => h x (List.mem_cons_of_mem q hx) hxk) q.2
      · rw [if_neg hk, if_neg hk]
        exact ih (fun x hx hxk => h x (List.mem_cons_of_mem q hx) hxk) v
    · rw [if_neg hq]
      have hk : ¬ q.1 = k := fun hk => hq (h q (List.mem_cons_self q rest) hk)
      rw [lastValD_cons, if_neg hk]
      exact ih (fun x hx hxk => h x (List.mem_cons_of_mem q hx) hxk) v

theorem specDedupRun_cons (kv : Str × Str) (rest : List (Str × Str)) :
    specDedupRun (kv :: rest) =
      (kv.1, lastValD kv.2 rest kv.1) :: specDedupRun (rest.filter (fun p => p.1 ≠ kv.1)) := by
  rw [specDedupRun]

theorem foldl_dictUpd_spec :
    ∀ (kept : List (Str × Str)) (d : List (Str × Str)),
      List.foldl (fun d kv => dictUpd d kv.1 kv.2) d kept =
        d.map (fun kv => (kv.1, lastValD kv.2 kept kv.1)) ++
          specDedupRun (kept.filter (fun kv => decide (¬ kv.1 ∈ d.map Prod.fst))) := by
  intro kept
  induction kept with
  | nil =>
    intro d
    rw [List.foldl_nil, List.filter_nil]
    show d = d.map (fun kv => (kv.1, kv.2)) ++ specDedupRun []
    rw [specDedupRun]
    simp
  | cons kv rest ih =>
    intro d
    rw [List.foldl_cons, ih (dictUpd d kv.1 kv.2), List.filter_cons]
    by_cases hk : kv.1 ∈ d.map Prod.fst
    · rw [dictUpd_mem kv.2 hk]
      have h1 : (decide (¬ kv.1 ∈ d.map Prod.fst)) = false := by simp [hk]
      rw [h1, if_neg (by simp)]
      rw [keys_map_upd, List.map_map]
      congr 1
      apply List.map_congr_left
      intro p _
      show (fun kv2 => (kv2.1, lastValD kv2.2 rest kv2.1))
          (if p.1 = kv.1 then (kv.1, kv.2) else p) =
        (p.1, lastValD p.2 (kv :: rest) p.1)
      by_cases hp : p.1 = kv.1
      · rw [if_pos hp]
        show (kv.1, lastValD kv.2 rest kv.1) = (p.1, lastValD p.2 (kv :: rest) p.1)
        rw [lastValD_cons, if_pos hp.symm, hp]
      · rw [if_neg hp]
        show (p.1, lastValD p.2 rest p.1) = (p.1, lastValD p.2 (kv :: rest) p.1)
        rw [lastValD_cons, if_neg (fun h => hp h.symm)]
    · rw [dictUpd_not_mem kv.2 hk]
      have h1 : (decide (¬ kv.1 ∈ d.map Prod.fst)) = true := by simp [hk]
      rw [h1, if_pos rfl]
      rw [List.map_append, specDedupRun_cons]
      simp only [List.map_cons, List.map_nil]
      have hmap : (d.map (fun kv2 => (kv2.1, lastValD kv2.2 rest kv2.1))) =
          d.map (fun kv2 => (kv2.1, lastValD kv2.2 (kv :: rest) kv2.1)) := by
        apply List.map_congr_left
        intro p hp
        have hne : ¬ kv.1 = p.1 := by
          intro h
          exact hk (List.mem_map.mpr ⟨p, hp, h.symm⟩)
        show (p.1, lastValD p.2 rest p.1) = (p.1, lastValD p.2 (kv :: rest) p.1)
        rw [lastValD_cons, if_neg hne]
      have hlast : lastValD kv.2 rest kv.1 =
          lastValD kv.2 (rest.filter (fun q => decide (¬ q.1 ∈ d.map Prod.fst))) kv.1 := by
        rw [lastValD_filter]
        intro q _ hq
        simp only [decide_eq_true_eq]
        rw [hq]
        exact hk
      have hfilters :
          (rest.filter (fun q => decide (¬ q.1 ∈ (d ++ [(kv.1, kv.2)]).map Prod.fst))) =
            ((rest.filter (fun q => decide (¬ q.1 ∈ d.map Prod.fst))).filter
              (fun p => p.1 ≠ kv.1)) := by
        rw [List.filter_filter]
        apply List.filter_congr
        intro q _
        by_cases hq1 : q.1 = kv.1 <;> by_cases hq2 : q.1 ∈ d.map Prod.fst <;>
          simp [hq1, hq2, List.map_append]
      rw [hmap, hlast, hfilters]
      simp [List.append_assoc]

theorem qdict_eq_foldl :
    ∀ (pairs : List (Str × Str)) (d : List (Str × Str)),
      pairs.foldl
        (fun d kv => if kv.1 ∈ STRIP_QUERY_PARAMS then d else dictUpd d kv.1 kv.2) d =
        (keptPairs pairs).foldl (fun d kv => dictUpd d kv.1 kv.2) d := by
  intro pairs
  induction pairs with
  | nil => intro d; rfl
  | cons kv rest ih =>
    intro d
    rw [List.foldl_cons]
    unfold keptPairs
    rw [List.filter_cons]
    by_cases hk : kv.1 ∈ STRIP_QUERY_PARAMS
    · rw [if_pos hk, if_neg (by simp [hk])]
      exact ih d
    · rw [if_neg hk, if_pos (by simp [hk]), List.foldl_cons]
      exact ih (dictUpd d kv.1 kv.2)

theorem qdict_eq_spec (pairs : List (Str × Str)) : qdict pairs = specDedupQuery pairs := by
  unfold qdict specDedupQuery
  rw [qdict_eq_foldl pairs [], foldl_dictUpd_spec (keptPairs pairs) []]
  simp

/-- C4 counterexample: for `http://a.com/p?x=1&x=2` the parsed query has the
repeated key `x` twice, but the re-encoded query of the normalized URL keeps
only one occurrence (the last value), so repeated keys are not preserved. -/
theorem repeated_key_cex :
    parseQslM (urlparseM (ofString "http://a.com/p?x=1&x=2")).query =
        [(ofString "x", ofString "1"), (ofString "x", ofString "2")] ∧
      normalize_url (ofString "http://a.com/p?x=1&x=2") = ofString "http://a.com/p?x=2" ∧
      parseQslM (urlparseM (normalize_url (ofString "http://a.com/p?x=1&x=2"))).query =
        [(ofString "x", ofString "2")] := by decide

/-- C4 (amended): `normalize_url` parses the query keeping blank values,
drops exactly the keys in the tracking denylist, and re-encodes the
remaining pairs with Python-dict semantics: each distinct key appears once,
at the position of its first surviving occurrence, carrying the value of its
last surviving occurrence (order of distinct keys is preserved; repeated
keys collapse). -/
theorem normalize_url_query_spec :
    ∀ u : Str,
      normalize_url u =
        urlunparseM
          { urlparseM u with
            scheme := lowerStr (urlparseM u).scheme
            netloc := lowerStr (urlparseM u).netloc
            path := rstripSlash (urlparseM u).path
            query := urlencodeM (specDedupQuery (parseQslM (urlparseM u).query))
            fragment := [] } := by
  intro u
  unfold normalize_url
  dsimp only
  rw [qdict_eq_spec]

/-- C5: two absolute URLs that differ only in their fragment and in
tracking-denylist query parameters (same scheme, netloc, path and params,
and the same surviving query pairs) normalize to the identical string. -/
theorem normalize_tracking_invariant :
    ∀ u1 u2 : Str,
      (urlparseM u1).scheme = (urlparseM u2).scheme →
      (urlparseM u1).netloc = (urlparseM u2).netloc →
      (urlparseM u1).path = (urlparseM u2).path →
      (urlparseM u1).params = (urlparseM u2).params →
      keptPairs (parseQslM (urlparseM u1).query) =
        keptPairs (parseQslM (urlparseM u2).query) →
      normalize_url u1 = normalize_url u2 := by
  intro u1 u2 hs hn hp hpar hq
  rw [normalize_url_query_spec u1, normalize_url_query_spec u2]
  unfold specDedupQuery
  dsimp only
  rw [hs, hn, hp, hpar, hq]

theorem normalize_tracking_invariant_witness : normalize_url uC5a = normalize_url uC5b :=
  normalize_tracking_invariant uC5a uC5b (by decide) (by decide) (by decide) (by decide)
    (by decide)

theorem asciiLower_idem (c : Nat) : asciiLower (asciiLower c) = asciiLower c := by
  unfold asciiLower
  split_ifs <;> omega

theorem lowerStr_idem (s : Str) : lowerStr (lowerStr s) = lowerStr s := by
  unfold lowerStr
  rw [List.map_map]
  apply List.map_congr_left
  intro c _
  exact asciiLower_idem c

theorem dropWhile_idem (p : Nat → Bool) (l : Str) :
    (l.dropWhile p).dropWhile p = l.dropWhile p := by
  apply dropWhile_eq_self_of_head
  intro c t h
  exact dropWhile_head_false h

theorem rstripSlash_idem (s : Str) : rstripSlash (rstripSlash s) = rstripSlash s := by
  unfold rstripSlash
  rw [List.reverse_reverse, dropWhile_idem]

theorem takeWhile_append_of_all {p : Nat → Bool} {A : Str} (B : Str)
    (h : ∀ c ∈ A, p c = true) : (A ++ B).takeWhile p = A ++ B.takeWhile p := by
  induction A with
  | nil => rfl
  | cons a t ih =>
    rw [List.cons_append, List.takeWhile_cons, if_pos (h a (List.mem_cons_self a t)),
      List.cons_append]
    rw [ih (fun c hc => h c (List.mem_cons_of_mem a hc))]

theorem dropWhile_append_of_all {p : Nat → Bool} {A : Str} (B : Str)
    (h : ∀ c ∈ A, p c = true) : (A ++ B).dropWhile p = B.dropWhile p := by
  induction A with
  | nil => rfl
  | cons a t ih =>
    rw [List.cons_append, List.dropWhile_cons, if_pos (h a (List.mem_cons_self a t))]
    exact ih (fun c hc => h c (List.mem_cons_of_mem a hc))

theorem splitFirst_not_mem {sep : Nat} {s : Str} (h : ¬ sep ∈ s) :
    splitFirst sep s = none := by
  unfold splitFirst
  rw [if_neg h]

theorem splitFirst_append {sep : Nat} {A : Str} (B : Str) (h : ¬ sep ∈ A) :
    splitFirst sep (A ++ sep :: B) = some (A, B) := by
  unfold splitFirst
  rw [if_pos (by simp)]
  have h1 : (A ++ sep :: B).takeWhile (fun c => c ≠ sep) = A := by
    rw [takeWhile_append_of_all (sep :: B) (fun c hc => by simp; exact fun he => h (he ▸ hc))]
    rw [List.takeWhile_cons, if_neg (by simp)]
    simp
  have h2 : (A ++ sep :: B).dropWhile (fun c => c ≠ sep) = sep :: B := by
    rw [dropWhile_append_of_all (sep :: B) (fun c hc => by simp; exact fun he => h (he ▸ hc))]
    rw [List.dropWhile_cons, if_neg (by simp)]
  rw [h1, h2]
  rfl

theorem utf8_char_roundtrip (c : Nat) (t : List Nat) (h1 : c < 1114112)
    (h2 : ¬(55296 ≤ c ∧ c ≤ 57343)) :
    utf8DecodeReplace (utf8EncodeChar c ++ t) = c :: utf8DecodeReplace t := by
  unfold utf8EncodeChar
  split_ifs with hA hB hC
  · show utf8DecodeReplace (c :: t) = c :: utf8DecodeReplace t
    rw [utf8DecodeReplace.eq_def]
    dsimp only
    rw [if_pos hA]
  · show utf8DecodeReplace ((192 + c / 64) :: (128 + c % 64) :: t) = c :: utf8DecodeReplace t
    rw [utf8DecodeReplace.eq_def]
    dsimp only
    rw [if_neg (by omega), if_pos (by omega : 194 ≤ 192 + c / 64 ∧ 192 + c / 64 ≤ 223)]
    rw [if_pos (by simp only [contIn, decide_eq_true_eq]; omega)]
    congr 1
    omega
  · show utf8DecodeReplace
        ((224 + c / 4096) :: (128 + c / 64 % 64) :: (128 + c % 64) :: t) =
      c :: utf8DecodeReplace t
    rw [utf8DecodeReplace.eq_def]
    dsimp only
    rw [if_neg (by omega), if_neg (by omega),
      if_pos (by omega : 224 ≤ 224 + c / 4096 ∧ 224 + c / 4096 ≤ 239)]
    have hcond : (if 224 + c / 4096 = 224 then contIn 160 191 (128 + c / 64 % 64)
        else if 224 + c / 4096 = 237 then contIn 128 159 (128 + c / 64 % 64)
        else contIn 128 191 (128 + c / 64 % 64)) = true := by
      by_cases h224 : c < 4096
      · rw [if_pos (by omega)]
        simp only [contIn, decide_eq_true_eq]
        omega
      · by_cases h237 : 53248 ≤ c ∧ c < 57344
        · rw [if_neg (by omega), if_pos (by omega)]
          simp only [contIn, decide_eq_true_eq]
          omega
        · rw [if_neg (by omega), if_neg (by omega)]
          simp only [contIn, decide_eq_true_eq]
          omega
    rw [if_pos hcond]
    rw [if_pos (by simp only [contIn, decide_eq_true_eq]; omega)]
    congr 1
    omega
  · show utf8DecodeReplace
        ((240 + c / 262144) :: (128 + c / 4096 % 64) :: (128 + c / 64 % 64) ::
          (128 + c % 64) :: t) =
      c :: utf8DecodeReplace t
    rw [utf8DecodeReplace.eq_def]
    dsimp only
    rw [if_neg (by omega), if_neg (by omega), if_neg (by omega),
      if_pos (by omega : 240 ≤ 240 + c / 262144 ∧ 240 + c / 262144 ≤ 244)]
    have hcond : (if 240 + c / 262144 = 240 then contIn 144 191 (128 + c / 4096 % 64)
        else if 240 + c / 262144 = 244 then contIn 128 143 (128 + c / 4096 % 64)
        else contIn 128 191 (128 + c / 4096 % 64)) = true := by
      by_cases h240 : c < 262144
      · rw [if_pos (by omega)]
        simp only [contIn, decide_eq_true_eq]
        omega
      · by_cases h244 : 1048576 ≤ c
        · rw [if_neg (by omega), if_pos (by omega)]
          simp only [contIn, decide_eq_true_eq]
          omega
        · rw [if_neg (by omega), if_neg (by omega)]
          simp only [contIn, decide_eq_true_eq]
          omega
    rw [if_pos hcond]
    rw [if_pos (by simp only [contIn, decide_eq_true_eq]; omega)]
    rw [if_pos (by simp only [contIn, decide_eq_true_eq]; omega)]
    congr 1
    omega

theorem utf8DecodeReplace_valid (bs : List Nat) :
    ∀ x ∈ utf8DecodeReplace bs, x < 1114112 ∧ ¬(55296 ≤ x ∧ x ≤ 57343) := by
  induction bs using utf8DecodeReplace.induct <;>
    (intro x hx
     rw [utf8DecodeReplace.eq_def] at hx
     dsimp only at hx
     try simp only [contIn, decide_eq_true_eq] at *
     try split_ifs at *
     all_goals try simp only [decide_eq_true_eq] at *) <;>
    first
      | exact absurd hx (List.not_mem_nil x)
      | omega
      | (rcases List.mem_singleton.mp hx with rfl
         constructor <;> omega)
      | (rcases List.mem_cons.mp hx with rfl | hx2
         · constructor <;> omega
         · solve_by_elim)

theorem utf8EncodeChar_lt_256 (c : Nat) (h : c < 1114112) :
    ∀ b ∈ utf8EncodeChar c, b < 256 := by
  unfold utf8EncodeChar
  split_ifs <;> intro b hb <;>
    simp only [List.mem_cons, List.not_mem_nil, or_false] at hb <;>
    rcases hb with rfl | hb <;> omega

theorem utf8_roundtrip (s : Str) (h : validStr s = true) :
    utf8DecodeReplace (utf8Encode s) = s := by
  induction s with
  | nil => rfl
  | cons c t ih =>
    simp only [validStr, List.all_cons, Bool.and_eq_true, decide_eq_true_eq] at h
    show utf8DecodeReplace ((List.map utf8EncodeChar (c :: t)).flatten) = c :: t
    rw [List.map_cons, List.flatten_cons]
    rw [utf8_char_roundtrip c _ h.1.1 h.1.2]
    have ih2 := ih (by simp only [validStr]; exact h.2)
    simp only [utf8Encode] at ih2
    rw [ih2]

theorem isHexDigit_hexDigitUpper (n : Nat) (h : n < 16) :
    isHexDigit (hexDigitUpper n) = true := by
  simp only [isHexDigit, hexDigitUpper, decide_eq_true_eq]
  split_ifs <;> omega

theorem hexVal_hexDigitUpper (n : Nat) (h : n < 16) :
    hexVal (hexDigitUpper n) = n := by
  simp only [hexVal, hexDigitUpper]
  split_ifs <;> omega

theorem decodeMixed_inl (bs : List Nat) : ∀ acc : List Nat,
    decodeMixed acc (bs.map Sum.inl) = utf8DecodeReplace (acc.reverse ++ bs) := by
  induction bs with
  | nil => intro acc; simp only [List.map_nil, decodeMixed, List.append_nil]
  | cons b t ih =>
    intro acc
    simp only [List.map_cons, decodeMixed]
    rw [ih (b :: acc)]
    simp only [List.reverse_cons, List.append_assoc, List.cons_append, List.nil_append]

theorem quoteByte_lit {safe : List Nat} {b : Nat} (h : alwaysSafe b = true ∨ b ∈ safe) :
    quoteByte safe b = [b] := by
  unfold quoteByte
  rw [if_pos h]

theorem quoteByte_esc {safe : List Nat} {b : Nat} (h : ¬(alwaysSafe b = true ∨ b ∈ safe)) :
    quoteByte safe b = [37, hexDigitUpper (b / 16), hexDigitUpper (b % 16)] := by
  unfold quoteByte
  rw [if_neg h]

theorem pctTokens_quote (safe : List Nat) (hsafe : ∀ c ∈ safe, c < 128 ∧ c ≠ 37) :
    ∀ bs : List Nat, (∀ b ∈ bs, b < 256) →
      (pctTokens ((bs.map (quoteByte safe)).flatten)).map tokVal = bs.map Sum.inl := by
  intro bs
  induction bs with
  | nil => intro _; rfl
  | cons b t ih =>
    intro hb
    have hb256 : b < 256 := hb b (List.mem_cons_self b t)
    have ht : ∀ x ∈ t, x < 256 := fun x hx => hb x (List.mem_cons_of_mem b hx)
    rw [List.map_cons, List.flatten_cons]
    by_cases hq : alwaysSafe b = true ∨ b ∈ safe
    · have hlt : b < 128 := by
        rcases hq with hA | hS
        · simp only [alwaysSafe, decide_eq_true_eq] at hA; omega
        · exact (hsafe b hS).1
      have hne : b ≠ 37 := by
        rcases hq with hA | hS
        · simp only [alwaysSafe, decide_eq_true_eq] at hA; omega
        · exact (hsafe b hS).2
      rw [quoteByte_lit hq]
      simp only [List.cons_append, List.nil_append]
      rw [pctTokens.eq_def]
      dsimp only
      rw [if_neg hne]
      rw [List.map_cons, ih ht, List.map_cons]
      congr 1
      simp only [tokVal]
      rw [if_pos hlt]
    · rw [quoteByte_esc hq]
      simp only [List.cons_append, List.nil_append]
      rw [pctTokens.eq_def]
      dsimp only
      rw [if_pos rfl]
      rw [if_pos ⟨isHexDigit_hexDigitUpper _ (by omega), isHexDigit_hexDigitUpper _ (by omega)⟩]
      rw [List.map_cons, ih ht, List.map_cons]
      congr 1
      simp only [tokVal]
      rw [hexVal_hexDigitUpper _ (by omega), hexVal_hexDigitUpper _ (by omega)]
      congr 1
      omega

theorem unquote_quoteM (safe : List Nat) (hsafe : ∀ c ∈ safe, c < 128 ∧ c ≠ 37)
    (s : Str) (hv : validStr s = true) : unquoteM (quoteM safe s) = s := by
  have hbytes : ∀ b ∈ utf8Encode s, b < 256 := by
    intro b hbmem
    rw [utf8Encode, List.mem_flatten] at hbmem
    obtain ⟨l, hl, hbl⟩ := hbmem
    rw [List.mem_map] at hl
    obtain ⟨c, hcs, rfl⟩ := hl
    have hc : c < 1114112 := by
      simp only [validStr, List.all_eq_true, decide_eq_true_eq] at hv
      exact (hv c hcs).1
    exact utf8EncodeChar_lt_256 c hc b hbl
  unfold unquoteM quoteM
  rw [pctTokens_quote safe hsafe (utf8Encode s) hbytes, decodeMixed_inl,
    List.reverse_nil, List.nil_append, utf8_roundtrip s hv]

theorem mem_quoteM (safe : List Nat) (s : Str) (hv : validStr s = true) :
    ∀ c ∈ quoteM safe s, alwaysSafe c = true ∨ c ∈ safe ∨ c = 37 ∨
      (48 ≤ c ∧ c ≤ 57) ∨ (65 ≤ c ∧ c ≤ 70) := by
  intro c hc
  unfold quoteM at hc
  rw [List.mem_flatten] at hc
  obtain ⟨l, hl, hcl⟩ := hc
  rw [List.mem_map] at hl
  obtain ⟨b, hbmem, rfl⟩ := hl
  have hb256 : b < 256 := by
    rw [utf8Encode, List.mem_flatten] at hbmem
    obtain ⟨l2, hl2, hbl2⟩ := hbmem
    rw [List.mem_map] at hl2
    obtain ⟨ch, hchs, rfl⟩ := hl2
    have hch : ch < 1114112 := by
      simp only [validStr, List.all_eq_true, decide_eq_true_eq] at hv
      exact (hv ch hchs).1
    exact utf8EncodeChar_lt_256 ch hch b hbl2
  by_cases hq : alwaysSafe b = true ∨ b ∈ safe
  · rw [quoteByte_lit hq, List.mem_singleton] at hcl
    subst hcl
    rcases hq with hA | hS
    · exact Or.inl hA
    · exact Or.inr (Or.inl hS)
  · rw [quoteByte_esc hq] at hcl
    simp only [List.mem_cons, List.not_mem_nil, or_false] at hcl
    rcases hcl with rfl | rfl | rfl
    · exact Or.inr (Or.inr (Or.inl rfl))
    · simp only [hexDigitUpper]
      split_ifs <;> [exact Or.inr (Or.inr (Or.inr (Or.inl (by omega))));
        exact Or.inr (Or.inr (Or.inr (Or.inr (by omega))))]
    · simp only [hexDigitUpper]
      split_ifs <;> [exact Or.inr (Or.inr (Or.inr (Or.inl (by omega))));
        exact Or.inr (Or.inr (Or.inr (Or.inr (by omega))))]

theorem unquote_plus_quotePlus (s : Str) (hv : validStr s = true) :
    unquoteM (plusToSpace (quotePlus s)) = s := by
  unfold quotePlus
  split_ifs with h32
  · have hmap : plusToSpace ((quoteM [32] s).map (fun c => if c = 32 then 43 else c)) =
        quoteM [32] s := by
      unfold plusToSpace
      rw [List.map_map]
      have hpt : ∀ c ∈ quoteM [32] s,
          ((fun c => if c = 43 then 32 else c) ∘ (fun c => if c = 32 then 43 else c)) c =
            id c := by
        intro c hc
        have hcls := mem_quoteM [32] s hv c hc
        have hne43 : c ≠ 43 := by
          rcases hcls with hA | hS | h37 | hd | hu
          · simp only [alwaysSafe, decide_eq_true_eq] at hA; omega
          · rw [List.mem_singleton] at hS; omega
          · omega
          · omega
          · omega
        simp only [Function.comp, id]
        by_cases h32c : c = 32
        · rw [if_pos h32c, if_pos rfl, h32c]
        · rw [if_neg h32c, if_neg hne43]
      rw [List.map_congr_left hpt, List.map_id]
    rw [hmap, unquote_quoteM [32]
      (by intro c hc; rw [List.mem_singleton] at hc; subst hc; exact ⟨by omega, by omega⟩) s hv]
  · have hmap : plusToSpace (quoteM [] s) = quoteM [] s := by
      unfold plusToSpace
      have hpt : ∀ c ∈ quoteM [] s, (fun c => if c = 43 then 32 else c) c = id c := by
        intro c hc
        have hcls := mem_quoteM [] s hv c hc
        have hne43 : c ≠ 43 := by
          rcases hcls with hA | hS | h37 | hd | hu
          · simp only [alwaysSafe, decide_eq_true_eq] at hA; omega
          · exact absurd hS (List.not_mem_nil c)
          · omega
          · omega
          · omega
        simp only [id]
        rw [if_neg hne43]
      rw [List.map_congr_left hpt, List.map_id]
    rw [hmap, unquote_quoteM [] (by intro c hc; exact absurd hc (List.not_mem_nil c)) s hv]

theorem mem_quotePlus (s : Str) (hv : validStr s = true) :
    ∀ c ∈ quotePlus s, alwaysSafe c = true ∨ c = 37 ∨ c = 43 ∨
      (48 ≤ c ∧ c ≤ 57) ∨ (65 ≤ c ∧ c ≤ 70) := by
  unfold quotePlus
  split_ifs with h32
  · intro c hc
    rw [List.mem_map] at hc
    obtain ⟨b, hb, rfl⟩ := hc
    have hcls := mem_quoteM [32] s hv b hb
    by_cases hb32 : b = 32
    · rw [if_pos hb32]
      exact Or.inr (Or.inr (Or.inl rfl))
    · rw [if_neg hb32]
      rcases hcls with hA | hS | h37 | hd | hu
      · exact Or.inl hA
      · rw [List.mem_singleton] at hS; exact absurd hS hb32
      · exact Or.inr (Or.inl h37)
      · exact Or.inr (Or.inr (Or.inr (Or.inl hd)))
      · exact Or.inr (Or.inr (Or.inr (Or.inr hu)))
  · intro c hc
    have hcls := mem_quoteM [] s hv c hc
    rcases hcls with hA | hS | h37 | hd | hu
    · exact Or.inl hA
    · exact absurd hS (List.not_mem_nil c)
    · exact Or.inr (Or.inl h37)
    · exact Or.inr (Or.inr (Or.inr (Or.inl hd)))
    · exact Or.inr (Or.inr (Or.inr (Or.inr hu)))

theorem quotePlus_char_facts (s : Str) (hv : validStr s = true) :
    ∀ c ∈ quotePlus s, 32 < c ∧ c ≠ 38 ∧ c ≠ 61 ∧ c ≠ 35 ∧ c ≠ 63 ∧ c ≠ 47 ∧
      c ≠ 59 ∧ c ≠ 9 ∧ c ≠ 10 ∧ c ≠ 13 := by
  intro c hc
  have hcls := mem_quotePlus s hv c hc
  rcases hcls with hA | h37 | h43 | hd | hu
  · simp only [alwaysSafe, decide_eq_true_eq] at hA
    refine ⟨by omega, by omega, by omega, by omega, by omega, by omega, by omega,
      by omega, by omega, by omega⟩
  · refine ⟨by omega, by omega, by omega, by omega, by omega, by omega, by omega,
      by omega, by omega, by omega⟩
  · refine ⟨by omega, by omega, by omega, by omega, by omega, by omega, by omega,
      by omega, by omega, by omega⟩
  · refine ⟨by omega, by omega, by omega, by omega, by omega, by omega, by omega,
      by omega, by omega, by omega⟩
  · refine ⟨by omega, by omega, by omega, by omega, by omega, by omega, by omega,
      by omega, by omega, by omega⟩

theorem splitAll_not_mem {sep : Nat} {s : Str} (h : sep ∉ s) : splitAll sep s = [s] := by
  induction s with
  | nil => rfl
  | cons c t ih =>
    rw [splitAll.eq_def]
    dsimp only
    rw [if_neg (show ¬c = sep from fun hc => h (hc ▸ List.mem_cons_self c t))]
    rw [ih (fun hc => h (List.mem_cons_of_mem c hc))]

theorem splitAll_append {sep : Nat} {A : Str} (B : Str) (h : sep ∉ A) :
    splitAll sep (A ++ sep :: B) = A :: splitAll sep B := by
  induction A with
  | nil =>
    rw [List.nil_append, splitAll.eq_def]
    dsimp only
    rw [if_pos rfl]
  | cons a t ih =>
    rw [List.cons_append, splitAll.eq_def]
    dsimp only
    rw [if_neg (show ¬a = sep from fun hc => h (hc ▸ List.mem_cons_self a t))]
    rw [ih (fun hc => h (List.mem_cons_of_mem a hc))]

theorem mem61_urlencode (d : List (Str × Str)) (hd : d ≠ []) : (61:Nat) ∈ urlencodeM d := by
  cases d with
  | nil => exact absurd rfl hd
  | cons kv rest =>
    cases rest with
    | nil =>
      simp only [urlencodeM, List.map_cons, List.map_nil, joinSep]
      simp
    | cons r rs =>
      simp only [urlencodeM, List.map_cons, joinSep]
      simp

theorem parseQsl_urlencode (d : List (Str × Str))
    (hv : ∀ kv ∈ d, validStr kv.1 = true ∧ validStr kv.2 = true) :
    parseQslM (urlencodeM d) = d := by
  induction d with
  | nil => rfl
  | cons kv rest ih =>
    have hv1 := (hv kv (List.mem_cons_self kv rest)).1
    have hv2 := (hv kv (List.mem_cons_self kv rest)).2
    have hvr : ∀ p ∈ rest, validStr p.1 = true ∧ validStr p.2 = true :=
      fun p hp => hv p (List.mem_cons_of_mem kv hp)
    have h61A : (61:Nat) ∉ quotePlus kv.1 := fun hc =>
      ((quotePlus_char_facts kv.1 hv1 61 hc).2.2.1) rfl
    have h38f : (38:Nat) ∉ quotePlus kv.1 ++ 61 :: quotePlus kv.2 := by
      intro hc
      rcases List.mem_append.mp hc with h1 | h2
      · exact (quotePlus_char_facts kv.1 hv1 38 h1).2.1 rfl
      · rcases List.mem_cons.mp h2 with he | h3
        · omega
        · exact (quotePlus_char_facts kv.2 hv2 38 h3).2.1 rfl
    have hFne : quotePlus kv.1 ++ 61 :: quotePlus kv.2 ≠ [] := by simp
    cases rest with
    | nil =>
      have hu : urlencodeM [kv] = quotePlus kv.1 ++ 61 :: quotePlus kv.2 := by
        simp only [urlencodeM, List.map_cons, List.map_nil, joinSep]
        simp only [List.append_assoc, List.cons_append, List.nil_append]
      rw [hu]
      unfold parseQslM
      rw [if_neg hFne, splitAll_not_mem h38f, List.filterMap_cons]
      rw [if_neg hFne, splitFirst_append _ h61A]
      dsimp only
      rw [unquote_plus_quotePlus kv.1 hv1, unquote_plus_quotePlus kv.2 hv2]
      simp only [List.filterMap_nil]
    | cons r rs =>
      have hQne : urlencodeM (r :: rs) ≠ [] := by
        intro h0
        have := mem61_urlencode (r :: rs) (by simp)
        rw [h0] at this
        exact absurd this (List.not_mem_nil 61)
      have hu : urlencodeM (kv :: r :: rs) =
          (quotePlus kv.1 ++ 61 :: quotePlus kv.2) ++ 38 :: urlencodeM (r :: rs) := by
        simp only [urlencodeM, List.map_cons, joinSep]
        simp only [List.append_assoc, List.cons_append, List.nil_append]
      rw [hu]
      unfold parseQslM
      rw [if_neg (by simp), splitAll_append _ h38f, List.filterMap_cons]
      rw [if_neg hFne, splitFirst_append _ h61A]
      dsimp only
      rw [unquote_plus_quotePlus kv.1 hv1, unquote_plus_quotePlus kv.2 hv2]
      have ihr := ih hvr
      unfold parseQslM at ihr
      rw [if_neg hQne] at ihr
      rw [ihr]

theorem mem_dictUpd {d : List (Str × Str)} {k v : Str} :
    ∀ kv ∈ dictUpd d k v, kv ∈ d ∨ kv = (k, v) := by
  intro kv hkv
  unfold dictUpd at hkv
  split_ifs at hkv with hany
  · rw [List.mem_map] at hkv
    obtain ⟨p, hp, hpe⟩ := hkv
    by_cases hpk : p.1 = k
    · rw [if_pos hpk] at hpe
      exact Or.inr hpe.symm
    · rw [if_neg hpk] at hpe
      exact Or.inl (hpe ▸ hp)
  · rcases List.mem_append.mp hkv with h1 | h2
    · exact Or.inl h1
    · rw [List.mem_singleton] at h2
      exact Or.inr h2

theorem keys_dictUpd_nodup {d : List (Str × Str)} {k v : Str}
    (h : (d.map Prod.fst).Nodup) : ((dictUpd d k v).map Prod.fst).Nodup := by
  unfold dictUpd
  split_ifs with hany
  · have : (d.map (fun p => if p.1 = k then (k, v) else p)).map Prod.fst = d.map Prod.fst := by
      rw [List.map_map]
      apply List.map_congr_left
      intro p _
      simp only [Function.comp]
      by_cases hpk : p.1 = k
      · rw [if_pos hpk]
        exact hpk.symm
      · rw [if_neg hpk]
    rw [this]
    exact h
  · rw [List.map_append, List.map_singleton]
    rw [List.nodup_append]
    refine ⟨h, List.nodup_singleton k, ?_⟩
    intro x hx hk
    rw [List.mem_singleton] at hk
    subst hk
    rw [List.mem_map] at hx
    obtain ⟨p, hp, hpe⟩ := hx
    exact hany (List.any_eq_true.mpr ⟨p, hp, by simp [hpe]⟩)

theorem qdict_inv (Pk Pv : Str → Prop) (pairs : List (Str × Str)) :
    ∀ acc : List (Str × Str),
      (∀ kv ∈ pairs, Pk kv.1 ∧ Pv kv.2) →
      (acc.map Prod.fst).Nodup →
      (∀ kv ∈ acc, kv.1 ∉ STRIP_QUERY_PARAMS ∧ Pk kv.1 ∧ Pv kv.2) →
      (((pairs.foldl (fun d kv =>
          if kv.1 ∈ STRIP_QUERY_PARAMS then d else dictUpd d kv.1 kv.2) acc).map
            Prod.fst).Nodup ∧
        ∀ kv ∈ pairs.foldl (fun d kv =>
            if kv.1 ∈ STRIP_QUERY_PARAMS then d else dictUpd d kv.1 kv.2) acc,
          kv.1 ∉ STRIP_QUERY_PARAMS ∧ Pk kv.1 ∧ Pv kv.2) := by
  induction pairs with
  | nil => intro acc _ h2 h3; exact ⟨h2, h3⟩
  | cons kv rest ih =>
    intro acc h1 h2 h3
    rw [List.foldl_cons]
    have h1r : ∀ p ∈ rest, Pk p.1 ∧ Pv p.2 :=
      fun p hp => h1 p (List.mem_cons_of_mem kv hp)
    by_cases hstrip : kv.1 ∈ STRIP_QUERY_PARAMS
    · rw [if_pos hstrip]
      exact ih acc h1r h2 h3
    · rw [if_neg hstrip]
      refine ih (dictUpd acc kv.1 kv.2) h1r (keys_dictUpd_nodup h2) ?_
      intro p hp
      rcases mem_dictUpd p hp with hold | hnew
      · exact h3 p hold
      · subst hnew
        exact ⟨hstrip, (h1 kv (List.mem_cons_self kv rest)).1,
          (h1 kv (List.mem_cons_self kv rest)).2⟩

theorem qdict_nodup (pairs : List (Str × Str)) : ((qdict pairs).map Prod.fst).Nodup :=
  (qdict_inv (fun _ => True) (fun _ => True) pairs []
    (fun _ _ => ⟨trivial, trivial⟩) List.nodup_nil (fun p hp => absurd hp (List.not_mem_nil p))).1

theorem mem_qdict_strip (pairs : List (Str × Str)) :
    ∀ kv ∈ qdict pairs, kv.1 ∉ STRIP_QUERY_PARAMS :=
  fun kv hkv => ((qdict_inv (fun _ => True) (fun _ => True) pairs []
    (fun _ _ => ⟨trivial, trivial⟩) List.nodup_nil
    (fun p hp => absurd hp (List.not_mem_nil p))).2 kv hkv).1

theorem mem_qdict_pred (Pk Pv : Str → Prop) (pairs : List (Str × Str))
    (h : ∀ kv ∈ pairs, Pk kv.1 ∧ Pv kv.2) :
    ∀ kv ∈ qdict pairs, Pk kv.1 ∧ Pv kv.2 :=
  fun kv hkv => ((qdict_inv Pk Pv pairs [] h List.nodup_nil
    (fun p hp => absurd hp (List.not_mem_nil p))).2 kv hkv).2

theorem foldl_dictUpd_fresh (rest : List (Str × Str)) :
    ∀ acc : List (Str × Str),
      (∀ kv ∈ rest, kv.1 ∉ STRIP_QUERY_PARAMS) →
      ((acc ++ rest).map Prod.fst).Nodup →
      rest.foldl (fun d kv =>
        if kv.1 ∈ STRIP_QUERY_PARAMS then d else dictUpd d kv.1 kv.2) acc = acc ++ rest := by
  induction rest with
  | nil => intro acc _ _; rw [List.foldl_nil, List.append_nil]
  | cons kv r ih =>
    intro acc h1 h2
    rw [List.foldl_cons, if_neg (h1 kv (List.mem_cons_self kv r))]
    have hk_not : kv.1 ∉ acc.map Prod.fst := by
      intro hk
      rw [List.map_append, List.map_cons, List.nodup_append] at h2
      exact h2.2.2 hk (List.mem_cons_self _ _)
    have hupd : dictUpd acc kv.1 kv.2 = acc ++ [kv] := by
      unfold dictUpd
      rw [if_neg]
      intro hany
      rw [List.any_eq_true] at hany
      obtain ⟨p, hp, hpe⟩ := hany
      rw [decide_eq_true_eq] at hpe
      exact hk_not (hpe ▸ List.mem_map_of_mem Prod.fst hp)
    rw [hupd]
    have hassoc : (acc ++ [kv]) ++ r = acc ++ kv :: r := by
      rw [List.append_assoc, List.singleton_append]
    rw [ih (acc ++ [kv]) (fun p hp => h1 p (List.mem_cons_of_mem kv hp))
      (by rw [hassoc]; exact h2), hassoc]

theorem qdict_fix (d : List (Str × Str)) (h1 : ∀ kv ∈ d, kv.1 ∉ STRIP_QUERY_PARAMS)
    (h2 : (d.map Prod.fst).Nodup) : qdict d = d := by
  unfold qdict
  rw [foldl_dictUpd_fresh d [] h1 (by rw [List.nil_append]; exact h2), List.nil_append]

theorem pctTokens_ch_mem_n : ∀ (n : Nat) (s : Str), s.length ≤ n →
    ∀ c, QTok.ch c ∈ pctTokens s → c ∈ s ∨ c = 37 := by
  intro n
  induction n with
  | zero =>
    intro s hs c hc
    rw [List.length_eq_zero.mp (Nat.le_zero.mp hs)] at hc
    exact absurd hc (List.not_mem_nil _)
  | succ n ih =>
    intro s hs c hc
    rcases s with _ | ⟨c1, rest⟩
    · exact absurd hc (List.not_mem_nil _)
    rw [pctTokens.eq_def] at hc
    dsimp only at hc
    by_cases h37 : c1 = 37
    · rw [if_pos h37] at hc
      rcases rest with _ | ⟨a, rest1⟩
      · rw [List.mem_singleton] at hc
        injection hc with h
        exact Or.inr (h.trans h37)
      rcases rest1 with _ | ⟨b, rest2⟩
      · dsimp only at hc
        rcases List.mem_cons.mp hc with he | ht
        · injection he with h
          exact Or.inr (h.trans h37)
        · rw [List.mem_singleton] at ht
          injection ht with h
          exact Or.inl (by rw [h]; exact List.mem_cons_of_mem c1 (List.mem_cons_self a []))
      dsimp only at hc
      by_cases hhex : isHexDigit a = true ∧ isHexDigit b = true
      · rw [if_pos hhex] at hc
        rcases List.mem_cons.mp hc with he | ht
        · exact absurd he (by simp)
        · rcases ih rest2 (by simp only [List.length_cons] at hs; omega) c ht with h1 | h2
          · exact Or.inl (List.mem_cons_of_mem c1 (List.mem_cons_of_mem a
              (List.mem_cons_of_mem b h1)))
          · exact Or.inr h2
      · rw [if_neg hhex] at hc
        rcases List.mem_cons.mp hc with he | ht
        · injection he with h
          exact Or.inr h
        · rcases ih (a :: b :: rest2) (by simp only [List.length_cons] at hs ⊢; omega)
            c ht with h1 | h2
          · exact Or.inl (List.mem_cons_of_mem c1 h1)
          · exact Or.inr h2
    · rw [if_neg h37] at hc
      rcases List.mem_cons.mp hc with he | ht
      · injection he with h
        exact Or.inl (by rw [h]; exact List.mem_cons_self _ _)
      · rcases ih rest (by simp only [List.length_cons] at hs; omega) c ht with h1 | h2
        · exact Or.inl (List.mem_cons_of_mem c1 h1)
        · exact Or.inr h2

theorem pctTokens_ch_mem (s : Str) (c : Nat) (h : QTok.ch c ∈ pctTokens s) :
    c ∈ s ∨ c = 37 :=
  pctTokens_ch_mem_n s.length s le_rfl c h

theorem decodeMixed_valid : ∀ (ts : List (Nat ⊕ Nat)) (acc : List Nat),
    (∀ c, Sum.inr c ∈ ts → c < 1114112 ∧ ¬(55296 ≤ c ∧ c ≤ 57343)) →
    ∀ x ∈ decodeMixed acc ts, x < 1114112 ∧ ¬(55296 ≤ x ∧ x ≤ 57343) := by
  intro ts
  induction ts with
  | nil =>
    intro acc _ x hx
    exact utf8DecodeReplace_valid acc.reverse x hx
  | cons t rest ih =>
    intro acc hinr x hx
    rcases t with b | c
    · rw [decodeMixed] at hx
      exact ih (b :: acc) (fun c hc => hinr c (List.mem_cons_of_mem _ hc)) x hx
    · rw [decodeMixed] at hx
      rcases List.mem_append.mp hx with h1 | h2
      · exact utf8DecodeReplace_valid acc.reverse x h1
      · rcases List.mem_cons.mp h2 with rfl | h3
        · exact hinr x (List.mem_cons_self _ _)
        · exact ih [] (fun c hc => hinr c (List.mem_cons_of_mem _ hc)) x h3

theorem unquote_valid (s : Str)
    (h : ∀ c ∈ s, c < 1114112 ∧ ¬(55296 ≤ c ∧ c ≤ 57343)) :
    validStr (unquoteM s) = true := by
  rw [validStr, List.all_eq_true]
  intro x hx
  simp only [decide_eq_true_eq]
  refine decodeMixed_valid ((pctTokens s).map tokVal) [] ?_ x hx
  intro c hc
  rw [List.mem_map] at hc
  obtain ⟨t, ht, hte⟩ := hc
  rcases t with b | c'
  · exact absurd hte (by simp [tokVal])
  · unfold tokVal at hte
    dsimp only at hte
    split_ifs at hte with hlt
    injection hte with he
    subst he
    rcases pctTokens_ch_mem s c' ht with h1 | h2
    · exact h c' h1
    · omega

theorem mem_splitAll {sep : Nat} : ∀ (s : Str) (seg : Str), seg ∈ splitAll sep s →
    ∀ c ∈ seg, c ∈ s := by
  intro s
  induction s with
  | nil =>
    intro seg hseg c hc
    rw [splitAll.eq_def] at hseg
    dsimp only at hseg
    rw [List.mem_singleton] at hseg
    subst hseg
    exact absurd hc (List.not_mem_nil c)
  | cons a t ih =>
    intro seg hseg c hc
    rw [splitAll.eq_def] at hseg
    dsimp only at hseg
    by_cases ha : a = sep
    · rw [if_pos ha] at hseg
      rcases List.mem_cons.mp hseg with he | h2
      · subst he
        exact absurd hc (List.not_mem_nil c)
      · exact List.mem_cons_of_mem a (ih seg h2 c hc)
    · rw [if_neg ha] at hseg
      rcases hsp : splitAll sep t with _ | ⟨seg1, segs1⟩
      · rw [hsp] at hseg
        dsimp only at hseg
        rw [List.mem_singleton] at hseg
        subst hseg
        rw [List.mem_singleton] at hc
        subst hc
        exact List.mem_cons_self _ _
      · rw [hsp] at hseg
        dsimp only at hseg
        rcases List.mem_cons.mp hseg with he | h2
        · subst he
          rcases List.mem_cons.mp hc with he2 | h3
          · subst he2
            exact List.mem_cons_self _ _
          · exact List.mem_cons_of_mem a
              (ih seg1 (by rw [hsp]; exact List.mem_cons_self seg1 segs1) c h3)
        · exact List.mem_cons_of_mem a
            (ih seg (by rw [hsp]; exact List.mem_cons_of_mem seg1 h2) c hc)

theorem splitFirst_subset {sep : Nat} {s a b : Str} (h : splitFirst sep s = some (a, b)) :
    (∀ c ∈ a, c ∈ s) ∧ (∀ c ∈ b, c ∈ s) := by
  unfold splitFirst at h
  split_ifs at h with hmem
  injection h with he
  have h1 : a = s.takeWhile (fun c => c ≠ sep) := (congrArg Prod.fst he).symm
  have h2 : b = (s.dropWhile (fun c => c ≠ sep)).tail := (congrArg Prod.snd he).symm
  constructor
  · intro c hc
    exact (List.takeWhile_sublist _).subset (h1 ▸ hc)
  · intro c hc
    exact (List.dropWhile_sublist _).subset ((List.tail_sublist _).subset (h2 ▸ hc))

theorem plusToSpace_valid_chars {s : Str}
    (h : ∀ c ∈ s, c < 1114112 ∧ ¬(55296 ≤ c ∧ c ≤ 57343)) :
    ∀ c ∈ plusToSpace s, c < 1114112 ∧ ¬(55296 ≤ c ∧ c ≤ 57343) := by
  intro c hc
  rw [plusToSpace, List.mem_map] at hc
  obtain ⟨c0, hc0, rfl⟩ := hc
  by_cases h43 : c0 = 43
  · rw [if_pos h43]
    exact ⟨by omega, by omega⟩
  · rw [if_neg h43]
    exact h c0 hc0

theorem parseQsl_valid (qs : Str)
    (h : ∀ c ∈ qs, c < 1114112 ∧ ¬(55296 ≤ c ∧ c ≤ 57343)) :
    ∀ kv ∈ parseQslM qs, validStr kv.1 = true ∧ validStr kv.2 = true := by
  intro kv hkv
  unfold parseQslM at hkv
  split_ifs at hkv with hqs
  · exact absurd hkv (List.not_mem_nil kv)
  · rw [List.mem_filterMap] at hkv
    obtain ⟨nv, hnv, hfn⟩ := hkv
    have hnvv : ∀ c ∈ nv, c < 1114112 ∧ ¬(55296 ≤ c ∧ c ≤ 57343) :=
      fun c hc => h c (mem_splitAll qs nv hnv c hc)
    split_ifs at hfn with hne
    rcases hsf : splitFirst 61 nv with _ | ⟨n, v⟩
    · rw [hsf] at hfn
      dsimp only at hfn
      injection hfn with he
      subst he
      exact ⟨unquote_valid _ (plusToSpace_valid_chars hnvv), rfl⟩
    · rw [hsf] at hfn
      dsimp only at hfn
      injection hfn with he
      subst he
      have hsub := splitFirst_subset hsf
      refine ⟨unquote_valid _ (plusToSpace_valid_chars ?_),
        unquote_valid _ (plusToSpace_valid_chars ?_)⟩
      · exact fun c hc => hnvv c (hsub.1 c hc)
      · exact fun c hc => hnvv c (hsub.2 c hc)

theorem querySplit_snd_sub (x : Str) : ∀ c ∈ (querySplit x).2, c ∈ x := by
  unfold querySplit
  rcases hsf : splitFirst 63 x with _ | ⟨a, b⟩
  · dsimp only
    intro c hc
    exact absurd hc (List.not_mem_nil c)
  · dsimp only
    intro c hc
    exact (splitFirst_subset hsf).2 c hc

theorem fragSplit_fst_sub (x : Str) : ∀ c ∈ (fragSplit x).1, c ∈ x := by
  unfold fragSplit
  rcases hsf : splitFirst 35 x with _ | ⟨a, b⟩
  · dsimp only
    intro c hc
    exact hc
  · dsimp only
    intro c hc
    exact (splitFirst_subset hsf).1 c hc

theorem netlocSplit_snd_sub (r : Str) : ∀ c ∈ (netlocSplit r).2, c ∈ r := by
  unfold netlocSplit
  split_ifs with h2
  · intro c hc
    exact (List.drop_sublist 2 r).subset ((List.dropWhile_sublist _).subset hc)
  · intro c hc
    exact hc

theorem splitScheme_snd_sub (u : Str) : ∀ c ∈ (splitScheme u).2, c ∈ u := by
  unfold splitScheme
  rcases hsf : splitFirst 58 u with _ | ⟨pre, post⟩
  · dsimp only
    intro c hc
    exact hc
  · rcases pre with _ | ⟨c1, t1⟩
    · intro c hc
      exact hc
    · dsimp only
      split_ifs with hcond
      · intro c hc
        exact (splitFirst_subset hsf).2 c hc
      · intro c hc
        exact hc

theorem mem_urlparse_query (u : Str) : ∀ c ∈ (urlparseM u).query, c ∈ u := by
  intro c hc
  have h0 : (urlparseM u).query =
      (querySplit (fragSplit (netlocSplit
        (splitScheme (removeUnsafeChars (lstripC0 u))).2).2).1).2 := rfl
  rw [h0] at hc
  have hc1 := querySplit_snd_sub _ c hc
  have hc2 := fragSplit_fst_sub _ c hc1
  have hc3 := netlocSplit_snd_sub _ c hc2
  have hc4 := splitScheme_snd_sub _ c hc3
  have hc5 : c ∈ lstripC0 u := by
    rw [removeUnsafeChars] at hc4
    exact (List.filter_sublist _).subset hc4
  rw [lstripC0] at hc5
  exact (List.dropWhile_sublist _).subset hc5

theorem urlparse_query_entries_valid (u : Str) (hv : validStr u = true) :
    ∀ kv ∈ parseQslM (urlparseM u).query, validStr kv.1 = true ∧ validStr kv.2 = true := by
  apply parseQsl_valid
  intro c hc
  have hcu : c ∈ u := mem_urlparse_query u c hc
  simp only [validStr, List.all_eq_true, decide_eq_true_eq] at hv
  exact hv c hcu

theorem mem_joinSep {sep : Str} : ∀ (l : List Str) (c : Nat), c ∈ joinSep sep l →
    c ∈ sep ∨ ∃ f ∈ l, c ∈ f := by
  intro l
  induction l with
  | nil =>
    intro c hc
    exact absurd hc (List.not_mem_nil c)
  | cons f fs ih =>
    intro c hc
    rcases fs with _ | ⟨f2, fs2⟩
    · exact Or.inr ⟨f, List.mem_singleton.mpr rfl, hc⟩
    · rw [joinSep.eq_def] at hc
      dsimp only at hc
      rcases List.mem_append.mp hc with h1 | h2
      · rcases List.mem_append.mp h1 with ha | hb
        · exact Or.inr ⟨f, List.mem_cons_self _ _, ha⟩
        · exact Or.inl hb
      · rcases ih c h2 with hs | ⟨g, hg, hcg⟩
        · exact Or.inl hs
        · exact Or.inr ⟨g, List.mem_cons_of_mem f hg, hcg⟩

theorem mem_urlencodeM (d : List (Str × Str))
    (hv : ∀ kv ∈ d, validStr kv.1 = true ∧ validStr kv.2 = true) :
    ∀ c ∈ urlencodeM d, 32 < c ∧ c ≠ 35 ∧ c ≠ 63 ∧ c ≠ 47 ∧ c ≠ 9 ∧ c ≠ 10 ∧ c ≠ 13 := by
  intro c hc
  unfold urlencodeM at hc
  rcases mem_joinSep _ c hc with hs | ⟨f, hf, hcf⟩
  · rw [List.mem_singleton] at hs
    subst hs
    refine ⟨by omega, by omega, by omega, by omega, by omega, by omega, by omega⟩
  · rw [List.mem_map] at hf
    obtain ⟨kv, hkv, rfl⟩ := hf
    rcases List.mem_append.mp hcf with h1 | h2
    · rcases List.mem_append.mp h1 with ha | hb
      · have := quotePlus_char_facts kv.1 (hv kv hkv).1 c ha
        refine ⟨this.1, this.2.2.2.1, this.2.2.2.2.1, this.2.2.2.2.2.1,
          this.2.2.2.2.2.2.2.1, this.2.2.2.2.2.2.2.2.1, this.2.2.2.2.2.2.2.2.2⟩
      · rw [List.mem_singleton] at hb
        subst hb
        refine ⟨by omega, by omega, by omega, by omega, by omega, by omega, by omega⟩
    · have := quotePlus_char_facts kv.2 (hv kv hkv).2 c h2
      refine ⟨this.1, this.2.2.2.1, this.2.2.2.2.1, this.2.2.2.2.2.1,
        this.2.2.2.2.2.2.2.1, this.2.2.2.2.2.2.2.2.1, this.2.2.2.2.2.2.2.2.2⟩

theorem schemeChar_facts {c : Nat} (h : isSchemeChar c = true) :
    isSchemeChar (asciiLower c) = true ∧ asciiLower (asciiLower c) = asciiLower c ∧
    32 < asciiLower c ∧ ¬asciiLower c = 58 ∧ ¬asciiLower c = 47 ∧ ¬asciiLower c = 63 ∧
    ¬asciiLower c = 35 ∧ ¬asciiLower c = 9 ∧ ¬asciiLower c = 10 ∧ ¬asciiLower c = 13 := by
  simp only [isSchemeChar, isAsciiAlpha, asciiLower, decide_eq_true_eq] at h ⊢
  split_ifs at h ⊢ <;> omega

theorem alpha_lower {c : Nat} (h : isAsciiAlpha c = true) :
    isAsciiAlpha (asciiLower c) = true ∧ 97 ≤ asciiLower c ∧ asciiLower c ≤ 122 := by
  simp only [isAsciiAlpha, asciiLower, decide_eq_true_eq] at h ⊢
  split_ifs at h ⊢ <;> omega

theorem netlocChar_lower {c : Nat} (h : notNetlocEnd c = true) :
    notNetlocEnd (asciiLower c) = true := by
  simp only [notNetlocEnd, asciiLower, decide_eq_true_eq] at h ⊢
  split_ifs at h ⊢ <;> omega

theorem asciiLower_not_ctl {c : Nat} (h : ¬c = 9 ∧ ¬c = 10 ∧ ¬c = 13) :
    ¬asciiLower c = 9 ∧ ¬asciiLower c = 10 ∧ ¬asciiLower c = 13 := by
  simp only [asciiLower]
  split_ifs <;> omega

theorem lowerStr_eq_self {s : Str} (h : ∀ c ∈ s, asciiLower c = c) : lowerStr s = s := by
  unfold lowerStr
  rw [List.map_congr_left h]
  exact List.map_id' s

theorem lowerStr_ne_nil {s : Str} (h : s ≠ []) : lowerStr s ≠ [] := by
  unfold lowerStr
  simp [List.map_eq_nil_iff, h]

theorem rstripSlash_subset (p : Str) : ∀ c ∈ rstripSlash p, c ∈ p := by
  intro c hc
  unfold rstripSlash at hc
  rw [List.mem_reverse] at hc
  exact List.mem_reverse.mp ((List.dropWhile_sublist _).subset hc)

theorem rstripSlash_cons_of {l : Str} (c : Nat) (hne : l ≠ []) (hid : rstripSlash l = l) :
    rstripSlash (c :: l) = c :: l := by
  have hrev : l.reverse ≠ [] := by
    simp [List.reverse_eq_nil_iff, hne]
  rcases hr : l.reverse with _ | ⟨h0, t0⟩
  · exact absurd hr hrev
  have hdrop : l.reverse.dropWhile (fun x => x = 47) = l.reverse := by
    have := congrArg List.reverse hid
    rw [rstripSlash, List.reverse_reverse] at this
    exact this
  have hph : decide (h0 = 47) = false := by
    rw [hr] at hdrop
    simpa using dropWhile_head_false hdrop
  unfold rstripSlash
  rw [List.reverse_cons, hr, List.cons_append, List.dropWhile_cons]
  rw [hph]
  simp only [Bool.false_eq_true, if_false]
  rw [← List.cons_append, ← hr, ← List.reverse_cons, List.reverse_reverse]

theorem splitFirst_none {sep : Nat} {s : Str} (h : splitFirst sep s = none) : sep ∉ s := by
  unfold splitFirst at h
  by_cases hmem : sep ∈ s
  · rw [if_pos hmem] at h
    exact absurd h (by simp)
  · exact hmem

theorem splitFirst_some_eq {sep : Nat} {s a b : Str} (h : splitFirst sep s = some (a, b)) :
    a = s.takeWhile (fun c => c ≠ sep) ∧ b = (s.dropWhile (fun c => c ≠ sep)).tail := by
  unfold splitFirst at h
  by_cases hmem : sep ∈ s
  · rw [if_pos hmem] at h
    injection h with he
    exact ⟨(congrArg Prod.fst he).symm, (congrArg Prod.snd he).symm⟩
  · rw [if_neg hmem] at h
    exact absurd h (by simp)

theorem mem_removeUnsafe {s : Str} {c : Nat} (h : c ∈ removeUnsafeChars s) :
    ¬c = 9 ∧ ¬c = 10 ∧ ¬c = 13 := by
  rw [removeUnsafeChars, List.mem_filter] at h
  have := h.2
  rw [decide_eq_true_eq] at this
  exact this

theorem fragSplit_fst_no35 (x : Str) : 35 ∉ (fragSplit x).1 := by
  unfold fragSplit
  rcases hsf : splitFirst 35 x with _ | ⟨a, b⟩
  · dsimp only
    exact splitFirst_none hsf
  · dsimp only
    intro hc
    have ha := (splitFirst_some_eq hsf).1
    subst ha
    have := List.mem_takeWhile_imp hc
    rw [decide_eq_true_eq] at this
    exact this rfl

theorem querySplit_fst_no63 (x : Str) : 63 ∉ (querySplit x).1 := by
  unfold querySplit
  rcases hsf : splitFirst 63 x with _ | ⟨a, b⟩
  · dsimp only
    exact splitFirst_none hsf
  · dsimp only
    intro hc
    have ha := (splitFirst_some_eq hsf).1
    subst ha
    have := List.mem_takeWhile_imp hc
    rw [decide_eq_true_eq] at this
    exact this rfl

theorem querySplit_fst_sub (x : Str) : ∀ c ∈ (querySplit x).1, c ∈ x := by
  unfold querySplit
  rcases hsf : splitFirst 63 x with _ | ⟨a, b⟩
  · dsimp only
    intro c hc
    exact hc
  · dsimp only
    intro c hc
    exact (splitFirst_subset hsf).1 c hc

theorem splitParams_fst_sub (p : Str) : ∀ c ∈ (splitParams p).1, c ∈ p := by
  unfold splitParams
  split_ifs with h47
  · dsimp only
    rcases hsf : splitFirst 59 ((p.reverse.takeWhile (fun c => c ≠ 47)).reverse)
      with _ | ⟨a, b⟩
    · rw [hsf]
      intro c hc
      exact hc
    · rw [hsf]
      intro c hc
      rcases List.mem_append.mp hc with h1 | h2
      · exact (List.take_sublist _ _).subset h1
      · have ha := (splitFirst_subset hsf).1 c h2
        rw [List.mem_reverse] at ha
        exact List.mem_reverse.mp ((List.takeWhile_sublist _).subset ha)
  · rcases hsf : splitFirst 59 p with _ | ⟨a, b⟩
    · intro c hc
      exact hc
    · intro c hc
      exact (splitFirst_subset hsf).1 c hc

theorem paramsSplit_fst_sub (sch p : Str) : ∀ c ∈ (paramsSplit sch p).1, c ∈ p := by
  unfold paramsSplit
  split_ifs with hc
  · exact splitParams_fst_sub p
  · intro c hcc
    exact hcc

theorem netlocSplit_fst_spec {r1 : Str} (h : (netlocSplit r1).1 ≠ []) :
    (netlocSplit r1).1 = (r1.drop 2).takeWhile notNetlocEnd ∧
    (netlocSplit r1).2 = (r1.drop 2).dropWhile notNetlocEnd := by
  unfold netlocSplit at h ⊢
  split_ifs at h ⊢ with h2
  · exact ⟨rfl, rfl⟩
  · exact absurd rfl h

theorem splitScheme_fst_spec {u1 : Str} (h : (splitScheme u1).1 ≠ []) :
    ∃ c1 t1 post, splitFirst 58 u1 = some (c1 :: t1, post) ∧
      isAsciiAlpha c1 = true ∧ (c1 :: t1).all isSchemeChar = true ∧
      splitScheme u1 = (lowerStr (c1 :: t1), post) := by
  unfold splitScheme at h ⊢
  rcases hsf : splitFirst 58 u1 with _ | ⟨pre, post⟩
  · rw [hsf] at h
    exact absurd rfl h
  · rw [hsf] at h
    dsimp only at h
    rcases pre with _ | ⟨c1, t1⟩
    · dsimp only at h
      exact absurd rfl h
    · dsimp only at h
      by_cases hcond : isAsciiAlpha c1 = true ∧ (c1 :: t1).all isSchemeChar = true
      · refine ⟨c1, t1, post, ?_, hcond.1, hcond.2, ?_⟩
        · rfl
        · dsimp only
          rw [if_pos hcond]
      · rw [if_neg hcond] at h
        exact absurd rfl h

theorem urlparseM_scheme (u : Str) :
    (urlparseM u).scheme = (splitScheme (removeUnsafeChars (lstripC0 u))).1 := rfl

theorem urlparseM_netloc (u : Str) :
    (urlparseM u).netloc =
      (netlocSplit (splitScheme (removeUnsafeChars (lstripC0 u))).2).1 := rfl

theorem urlparseM_path (u : Str) :
    (urlparseM u).path =
      (paramsSplit (splitScheme (removeUnsafeChars (lstripC0 u))).1
        (querySplit (fragSplit
          (netlocSplit (splitScheme (removeUnsafeChars (lstripC0 u))).2).2).1).1).1 := rfl

theorem schemeChar_misc {c : Nat} (h : isSchemeChar c = true) :
    ¬c = 58 ∧ 32 < c ∧ ¬c = 9 ∧ ¬c = 10 ∧ ¬c = 13 ∧ ¬c = 35 ∧ ¬c = 63 ∧ ¬c = 47 := by
  simp only [isSchemeChar, isAsciiAlpha, decide_eq_true_eq] at h
  rcases h with (h | h) | h | h | h | h <;>
    refine ⟨by omega, by omega, by omega, by omega, by omega, by omega, by omega, by omega⟩

theorem reparse_unsplit (ls ln rp q' : Str)
    (hls : ∃ c1 t1, ls = c1 :: t1 ∧ isAsciiAlpha c1 = true ∧ 97 ≤ c1)
    (hlsc : ∀ c ∈ ls, isSchemeChar c = true ∧ asciiLower c = c)
    (hln_ne : ln ≠ [])
    (hlnc : ∀ c ∈ ln, notNetlocEnd c = true ∧ ¬c = 9 ∧ ¬c = 10 ∧ ¬c = 13)
    (hrp35 : 35 ∉ rp) (hrp63 : 63 ∉ rp) (hrp59 : 59 ∉ rp)
    (hrpc : ∀ c ∈ rp, ¬c = 9 ∧ ¬c = 10 ∧ ¬c = 13)
    (hqc : ∀ c ∈ q', 32 < c ∧ ¬c = 35 ∧ ¬c = 63 ∧ ¬c = 9 ∧ ¬c = 10 ∧ ¬c = 13) :
    urlparseM (urlunsplitM ls ln rp q' []) =
      ⟨ls, ln, if rp ≠ [] ∧ rp.take 1 ≠ [47] then 47 :: rp else rp, [], q', []⟩ := by
  obtain ⟨c1, t1, rfl, hc1a, hc1ge⟩ := hls
  set P : Str := if rp ≠ [] ∧ rp.take 1 ≠ [47] then 47 :: rp else rp with hP
  set Qe : Str := if q' = [] then [] else 63 :: q' with hQe
  have hP_cases : P = [] ∨ ∃ t, P = 47 :: t := by
    rw [hP]
    split_ifs with h
    · exact Or.inr ⟨rp, rfl⟩
    · push_neg at h
      rcases hrpe : rp with _ | ⟨r0, rt⟩
      · exact Or.inl rfl
      · have ht := h (by rw [hrpe]; simp)
        rw [hrpe] at ht
        simp only [List.take] at ht
        injection ht with h0 _
        exact Or.inr ⟨rt, by rw [h0]⟩
  have hPsub : ∀ c ∈ P, c = 47 ∨ c ∈ rp := by
    rw [hP]
    split_ifs
    · intro c hc
      rcases List.mem_cons.mp hc with rfl | h
      · exact Or.inl rfl
      · exact Or.inr h
    · intro c hc
      exact Or.inr hc
  have hP35 : (35:Nat) ∉ P := by
    intro hc
    rcases hPsub 35 hc with h | h
    · omega
    · exact hrp35 h
  have hP63 : (63:Nat) ∉ P := by
    intro hc
    rcases hPsub 63 hc with h | h
    · omega
    · exact hrp63 h
  have hP59 : (59:Nat) ∉ P := by
    intro hc
    rcases hPsub 59 hc with h | h
    · omega
    · exact hrp59 h
  have hPc : ∀ c ∈ P, ¬c = 9 ∧ ¬c = 10 ∧ ¬c = 13 := by
    intro c hc
    rcases hPsub c hc with h | h
    · omega
    · exact hrpc c h
  have hQe_mem : ∀ c ∈ Qe, c = 63 ∨ c ∈ q' := by
    rw [hQe]
    split_ifs with hq
    · intro c hc
      exact absurd hc (List.not_mem_nil c)
    · intro c hc
      rcases List.mem_cons.mp hc with rfl | h
      · exact Or.inl rfl
      · exact Or.inr h
  have hlnAll : ∀ c ∈ ln, notNetlocEnd c = true := fun c hc => (hlnc c hc).1
  have h58ls : (58:Nat) ∉ c1 :: t1 := fun hc => (schemeChar_misc (hlsc 58 hc).1).1 rfl
  have hXtake : (P ++ Qe).takeWhile notNetlocEnd = [] ∧
      (P ++ Qe).dropWhile notNetlocEnd = P ++ Qe := by
    rcases hP_cases with hP0 | ⟨t, hPt⟩
    · rw [hP0, List.nil_append, hQe]
      split_ifs with hq
      · exact ⟨rfl, rfl⟩
      · exact ⟨by rw [List.takeWhile_cons, if_neg (by decide)],
          by rw [List.dropWhile_cons, if_neg (by decide)]⟩
    · rw [hPt, List.cons_append]
      exact ⟨by rw [List.takeWhile_cons, if_neg (by decide)],
        by rw [List.dropWhile_cons, if_neg (by decide)]⟩
  have hU : urlunsplitM (c1 :: t1) ln rp q' [] =
      (c1 :: t1) ++ 58 :: (47 :: 47 :: (ln ++ (P ++ Qe))) := by
    unfold urlunsplitM
    dsimp only
    rw [if_pos (Or.inl hln_ne)]
    rw [if_pos (by simp : (c1 :: t1 : Str) ≠ [])]
    rw [← hP]
    by_cases hq : q' = []
    · rw [if_neg (by simp [hq] : ¬(q' ≠ []))]
      rw [if_neg (by simp : ¬(([]:Str) ≠ []))]
      rw [hQe, if_pos hq]
      simp only [List.append_assoc, List.cons_append, List.nil_append, List.append_nil]
    · rw [if_pos hq]
      rw [if_neg (by simp : ¬(([]:Str) ≠ []))]
      rw [hQe, if_neg hq]
      simp only [List.append_assoc, List.cons_append, List.nil_append]
  have hWc : ∀ c ∈ (c1 :: t1) ++ 58 :: (47 :: 47 :: (ln ++ (P ++ Qe))),
      ¬c = 9 ∧ ¬c = 10 ∧ ¬c = 13 := by
    intro c hc
    rcases List.mem_append.mp hc with h | h
    · have := schemeChar_misc (hlsc c h).1
      omega
    · rcases List.mem_cons.mp h with rfl | h
      · omega
      rcases List.mem_cons.mp h with rfl | h
      · omega
      rcases List.mem_cons.mp h with rfl | h
      · omega
      rcases List.mem_append.mp h with h | h
      · exact (hlnc c h).2
      rcases List.mem_append.mp h with h | h
      · exact hPc c h
      · rcases hQe_mem c h with rfl | h3
        · omega
        · have := hqc c h3
          omega
  have h1 : lstripC0 ((c1 :: t1) ++ 58 :: (47 :: 47 :: (ln ++ (P ++ Qe)))) =
      (c1 :: t1) ++ 58 :: (47 :: 47 :: (ln ++ (P ++ Qe))) := by
    rw [lstripC0, List.cons_append, List.dropWhile_cons,
      if_neg (by simp only [decide_eq_true_eq]; omega), ← List.cons_append]
  have h2 : removeUnsafeChars ((c1 :: t1) ++ 58 :: (47 :: 47 :: (ln ++ (P ++ Qe)))) =
      (c1 :: t1) ++ 58 :: (47 :: 47 :: (ln ++ (P ++ Qe))) := by
    rw [removeUnsafeChars]
    apply List.filter_eq_self.mpr
    intro c hc
    simp only [decide_eq_true_eq]
    exact hWc c hc
  have hall : (c1 :: t1).all isSchemeChar = true :=
    List.all_eq_true.mpr (fun c hc => (hlsc c hc).1)
  have h3 : splitScheme ((c1 :: t1) ++ 58 :: (47 :: 47 :: (ln ++ (P ++ Qe)))) =
      (c1 :: t1, 47 :: 47 :: (ln ++ (P ++ Qe))) := by
    unfold splitScheme
    rw [splitFirst_append _ h58ls]
    dsimp only
    rw [if_pos ⟨hc1a, hall⟩]
    rw [lowerStr_eq_self (fun c hc => (hlsc c hc).2)]
  have h4 : netlocSplit (47 :: 47 :: (ln ++ (P ++ Qe))) = (ln, P ++ Qe) := by
    unfold netlocSplit
    rw [if_pos (show List.take 2 (47 :: 47 :: (ln ++ (P ++ Qe))) = [47, 47] from rfl)]
    simp only [List.drop_succ_cons, List.drop_zero]
    rw [takeWhile_append_of_all _ hlnAll, dropWhile_append_of_all _ hlnAll,
      hXtake.1, hXtake.2, List.append_nil]
  have h35PQ : (35:Nat) ∉ P ++ Qe := by
    intro hc
    rcases List.mem_append.mp hc with h1 | h2
    · exact hP35 h1
    · rcases hQe_mem 35 h2 with h | h
      · omega
      · exact (hqc 35 h).2.1 rfl
  have h5 : fragSplit (P ++ Qe) = (P ++ Qe, []) := by
    unfold fragSplit
    rw [splitFirst_not_mem h35PQ]
  have h6 : querySplit (P ++ Qe) = (P, q') := by
    unfold querySplit
    by_cases hq : q' = []
    · rw [hQe, if_pos hq, List.append_nil, splitFirst_not_mem hP63, hq]
    · have hQ63 : Qe = 63 :: q' := by rw [hQe, if_neg hq]
      rw [hQ63, splitFirst_append _ hP63]
  have h7 : paramsSplit (c1 :: t1) P = (P, []) := by
    unfold paramsSplit
    rw [if_neg (fun hand => hP59 hand.2)]
  rw [hU]
  unfold urlparseM
  dsimp only
  rw [h1, h2, h3]
  dsimp only
  rw [h4]
  dsimp only
  rw [h5]
  dsimp only
  rw [h6]
  dsimp only
  rw [h7]

/-- C6: amended claim. `normalize_url` is idempotent on every valid URL whose
parse has a nonempty scheme and netloc, a path free of `;`, and no params
component: normalizing a second time changes nothing. (The original claim,
idempotence for all inputs, is refuted by `normalize_url_idem_cex`: a
trailing slash can expose a `;` in the last path segment, which the second
pass splits off as params.) -/
theorem normalize_url_idem (u : Str) (hv : validStr u = true)
    (hs : (urlparseM u).scheme ≠ []) (hn : (urlparseM u).netloc ≠ [])
    (hsemi : (59:Nat) ∉ (urlparseM u).path) (hpar : (urlparseM u).params = []) :
    normalize_url (normalize_url u) = normalize_url u := by
  have hs1 : (splitScheme (removeUnsafeChars (lstripC0 u))).1 ≠ [] := by
    rw [← urlparseM_scheme]
    exact hs
  obtain ⟨c1, t1, post, hsf, hca, hall, hsch⟩ := splitScheme_fst_spec hs1
  have hschemeEq : (urlparseM u).scheme = lowerStr (c1 :: t1) := by
    rw [urlparseM_scheme, hsch]
  have hlsEq : lowerStr (urlparseM u).scheme = lowerStr (c1 :: t1) := by
    rw [hschemeEq, lowerStr_idem]
  have hlsc : ∀ c ∈ lowerStr (urlparseM u).scheme,
      isSchemeChar c = true ∧ asciiLower c = c := by
    rw [hlsEq]
    intro c hc
    rw [lowerStr, List.mem_map] at hc
    obtain ⟨c0, hc0, rfl⟩ := hc
    have hsc0 : isSchemeChar c0 = true := List.all_eq_true.mp hall c0 hc0
    exact ⟨(schemeChar_facts hsc0).1, (schemeChar_facts hsc0).2.1⟩
  have hls_ex : ∃ a b, lowerStr (urlparseM u).scheme = a :: b ∧
      isAsciiAlpha a = true ∧ 97 ≤ a := by
    refine ⟨asciiLower c1, lowerStr t1, ?_, (alpha_lower hca).1, (alpha_lower hca).2.1⟩
    rw [hlsEq]
    rfl
  have hnet1 : (netlocSplit (splitScheme (removeUnsafeChars (lstripC0 u))).2).1 ≠ [] := by
    rw [← urlparseM_netloc]
    exact hn
  have hnl := netlocSplit_fst_spec hnet1
  have hnetEq : (urlparseM u).netloc =
      ((splitScheme (removeUnsafeChars (lstripC0 u))).2.drop 2).takeWhile notNetlocEnd := by
    rw [urlparseM_netloc, hnl.1]
  have hlnc0 : ∀ c ∈ (urlparseM u).netloc,
      notNetlocEnd c = true ∧ ¬c = 9 ∧ ¬c = 10 ∧ ¬c = 13 := by
    intro c hc
    rw [hnetEq] at hc
    refine ⟨List.mem_takeWhile_imp hc, ?_⟩
    have h1 : c ∈ (splitScheme (removeUnsafeChars (lstripC0 u))).2 :=
      (List.drop_sublist 2 _).subset ((List.takeWhile_sublist _).subset hc)
    exact mem_removeUnsafe (splitScheme_snd_sub _ c h1)
  have hln_ne : lowerStr (urlparseM u).netloc ≠ [] := lowerStr_ne_nil hn
  have hlnc : ∀ c ∈ lowerStr (urlparseM u).netloc,
      notNetlocEnd c = true ∧ ¬c = 9 ∧ ¬c = 10 ∧ ¬c = 13 := by
    intro c hc
    rw [lowerStr, List.mem_map] at hc
    obtain ⟨c0, hc0, rfl⟩ := hc
    have := hlnc0 c0 hc0
    exact ⟨netlocChar_lower this.1, asciiLower_not_ctl this.2⟩
  have hpathsub : ∀ c ∈ (urlparseM u).path,
      c ∈ (querySplit (fragSplit (netlocSplit
        (splitScheme (removeUnsafeChars (lstripC0 u))).2).2).1).1 := by
    intro c hc
    rw [urlparseM_path] at hc
    exact paramsSplit_fst_sub _ _ c hc
  have hp35 : (35:Nat) ∉ (urlparseM u).path := by
    intro hc
    exact fragSplit_fst_no35 _ (querySplit_fst_sub _ 35 (hpathsub 35 hc))
  have hp63 : (63:Nat) ∉ (urlparseM u).path := by
    intro hc
    exact querySplit_fst_no63 _ (hpathsub 63 hc)
  have hpctl : ∀ c ∈ (urlparseM u).path, ¬c = 9 ∧ ¬c = 10 ∧ ¬c = 13 := by
    intro c hc
    have h1 := querySplit_fst_sub _ c (hpathsub c hc)
    have h2 := fragSplit_fst_sub _ c h1
    have h3 := netlocSplit_snd_sub _ c h2
    exact mem_removeUnsafe (splitScheme_snd_sub _ c h3)
  have hrp35 : (35:Nat) ∉ rstripSlash (urlparseM u).path :=
    fun hc => hp35 (rstripSlash_subset _ 35 hc)
  have hrp63 : (63:Nat) ∉ rstripSlash (urlparseM u).path :=
    fun hc => hp63 (rstripSlash_subset _ 63 hc)
  have hrp59 : (59:Nat) ∉ rstripSlash (urlparseM u).path :=
    fun hc => hsemi (rstripSlash_subset _ 59 hc)
  have hrpc : ∀ c ∈ rstripSlash (urlparseM u).path, ¬c = 9 ∧ ¬c = 10 ∧ ¬c = 13 :=
    fun c hc => hpctl c (rstripSlash_subset _ c hc)
  have hqv : ∀ kv ∈ qdict (parseQslM (urlparseM u).query),
      validStr kv.1 = true ∧ validStr kv.2 = true :=
    mem_qdict_pred (fun t => validStr t = true) (fun t => validStr t = true) _
      (urlparse_query_entries_valid u hv)
  have hqc : ∀ c ∈ urlencodeM (qdict (parseQslM (urlparseM u).query)),
      32 < c ∧ ¬c = 35 ∧ ¬c = 63 ∧ ¬c = 9 ∧ ¬c = 10 ∧ ¬c = 13 := by
    intro c hc
    have := mem_urlencodeM _ hqv c hc
    exact ⟨this.1, this.2.1, this.2.2.1, this.2.2.2.2.1, this.2.2.2.2.2.1,
      this.2.2.2.2.2.2⟩
  have hnorm1 : normalize_url u =
      urlunsplitM (lowerStr (urlparseM u).scheme) (lowerStr (urlparseM u).netloc)
        (rstripSlash (urlparseM u).path)
        (urlencodeM (qdict (parseQslM (urlparseM u).query))) [] := by
    unfold normalize_url urlunparseM
    dsimp only
    rw [hpar]
    rw [if_neg (by simp)]
  have hrep := reparse_unsplit (lowerStr (urlparseM u).scheme)
    (lowerStr (urlparseM u).netloc) (rstripSlash (urlparseM u).path)
    (urlencodeM (qdict (parseQslM (urlparseM u).query)))
    hls_ex hlsc hln_ne hlnc hrp35 hrp63 hrp59 hrpc hqc
  have hnorm2 : normalize_url (normalize_url u) =
      urlunsplitM (lowerStr (lowerStr (urlparseM u).scheme))
        (lowerStr (lowerStr (urlparseM u).netloc))
        (rstripSlash (if rstripSlash (urlparseM u).path ≠ [] ∧
            (rstripSlash (urlparseM u).path).take 1 ≠ [47]
          then 47 :: rstripSlash (urlparseM u).path
          else rstripSlash (urlparseM u).path))
        (urlencodeM (qdict (parseQslM
          (urlencodeM (qdict (parseQslM (urlparseM u).query)))))) [] := by
    rw [hnorm1]
    unfold normalize_url urlunparseM
    dsimp only
    rw [hrep]
    dsimp only
    rw [if_neg (by simp)]
  rw [hnorm2]
  rw [lowerStr_eq_self (fun c hc => (hlsc c hc).2)]
  rw [lowerStr_idem]
  rw [parseQsl_urlencode _ hqv]
  rw [qdict_fix _ (mem_qdict_strip _) (qdict_nodup _)]
  rw [hnorm1]
  by_cases hc1 : rstripSlash (urlparseM u).path ≠ [] ∧
      (rstripSlash (urlparseM u).path).take 1 ≠ [47]
  · rw [if_pos hc1]
    rw [rstripSlash_cons_of 47 hc1.1 (rstripSlash_idem _)]
    unfold urlunsplitM
    dsimp only
    rw [if_pos (Or.inl hln_ne), if_pos (Or.inl hln_ne)]
    rw [if_neg (show ¬((47 :: rstripSlash (urlparseM u).path : Str) ≠ [] ∧
        (47 :: rstripSlash (urlparseM u).path).take 1 ≠ [47]) from fun h => h.2 rfl)]
    rw [if_pos hc1]
  · rw [if_neg hc1]
    rw [rstripSlash_idem]

/-- C6 (counterexample to the original claim): `normalize_url` is not
idempotent. On `"http://h/a/;x/"` the first pass keeps the `;x` inside the
path (the `;` is not in the last segment once the trailing slash is
stripped), but the second pass sees path `/a/;x`, splits `;x` off as params
of the last segment, and `urlunparse` re-attaches it, yielding a different
string. Verified against CPython 3.11 `urllib.parse`. -/
theorem normalize_url_idem_cex :
    normalize_url (normalize_url uC6cex) ≠ normalize_url uC6cex := by decide

theorem normalize_url_idem_witness :
    validStr uC6 = true ∧ (urlparseM uC6).scheme ≠ [] ∧ (urlparseM uC6).netloc ≠ [] ∧
    (59:Nat) ∉ (urlparseM uC6).path ∧ (urlparseM uC6).params = [] ∧
    normalize_url (normalize_url uC6) = normalize_url uC6 :=
  ⟨by decide, by decide, by decide, by decide, by decide,
    normalize_url_idem uC6 (by decide) (by decide) (by decide) (by decide) (by decide)⟩
